import Mathlib

/-!
Verification of the URL-normalization, URL-set-filtering and hierarchy-aggregation
core of the Site-Map-Tree-Visualiser repository (src/app.py).

Strings are modelled as `List Char` internally (Python `str` is a sequence of
code points), with `String` wrappers at the API boundary.  The relevant parts
of Python's standard library (`urllib.parse.urlsplit` / `urlunsplit`,
`str.strip`, `str.lower`, `str.split`, `re.sub(r"/+", "/", ·)`,
`sorted(set(·))`, `collections.Counter`) are embedded following CPython 3.11
(the series current for the repository): `urlsplit` lstrips C0-control/space
characters, removes tab/CR/LF everywhere, lowercases a detected scheme, splits
the netloc before fragment and query, and raises `ValueError("Invalid IPv6
URL")` when the netloc contains `[` without `]` or vice versa.  The model
covers ASCII case-mapping (the hosts and schemes the checks apply to are
ASCII) and omits CPython's additional bracketed-host and non-ASCII-NFKC netloc
validation, which only rejects further exotic inputs.
-/

namespace SiteMap

instance {ε α : Type} [DecidableEq ε] [DecidableEq α] : DecidableEq (Except ε α) := fun x y =>
  match x, y with
  | .ok a, .ok b => decidable_of_iff (a = b) (by simp)
  | .error e, .error f => decidable_of_iff (e = f) (by simp)
  | .ok _, .error _ => isFalse (by simp)
  | .error _, .ok _ => isFalse (by simp)

/-- Python `str.isspace` characters (the set stripped by `str.strip()`). -/
def pyIsSpace (c : Char) : Bool :=
  decide (c.toNat = 32 ∨ (9 ≤ c.toNat ∧ c.toNat ≤ 13) ∨ (28 ≤ c.toNat ∧ c.toNat ≤ 31) ∨
    c.toNat = 133 ∨ c.toNat = 160 ∨ c.toNat = 5760 ∨
    (8192 ≤ c.toNat ∧ c.toNat ≤ 8202) ∨ c.toNat = 8232 ∨ c.toNat = 8233 ∨
    c.toNat = 8239 ∨ c.toNat = 8287 ∨ c.toNat = 12288)

/-- Python `s.strip()`: remove leading and trailing whitespace. -/
def pyStrip (l : List Char) : List Char :=
  ((l.dropWhile pyIsSpace).reverse.dropWhile pyIsSpace).reverse

/-- ASCII lower-casing of one character (`str.lower` restricted to ASCII). -/
def lowerCh (c : Char) : Char :=
  if 'A' ≤ c ∧ c ≤ 'Z' then Char.ofNat (c.toNat + 32) else c

/-- Python `s.lower()` (ASCII model). -/
def pyLower (l : List Char) : List Char := l.map lowerCh

/-- Characters permitted in a URL scheme after the first (CPython `scheme_chars`). -/
def schemeCh (c : Char) : Bool :=
  c.isAlpha || c.isDigit || decide (c = '+' ∨ c = '-' ∨ c = '.')

/-- Netloc delimiters searched by CPython `_splitnetloc`. -/
def stopCh (c : Char) : Bool := decide (c = '/' ∨ c = '?' ∨ c = '#')

/-- Split a list at the first occurrence of `x` (Python `s.split(x, 1)` when
`x` occurs); `none` when `x` does not occur. -/
def splitFirst (x : Char) (l : List Char) : Option (List Char × List Char) :=
  match l.dropWhile (· ≠ x) with
  | [] => none
  | _ :: t => some (l.takeWhile (· ≠ x), t)

/-- Result of `urllib.parse.urlsplit`. -/
structure SplitResult where
  scheme : List Char
  netloc : List Char
  path : List Char
  query : List Char
  fragment : List Char
deriving DecidableEq, Repr

/-- The preprocessing of CPython 3.11 `urlsplit`: lstrip C0-control/space
characters, then delete every tab, CR and LF. -/
def preClean (url0 : List Char) : List Char :=
  (url0.dropWhile fun c => decide (c.toNat ≤ 32)).filter
    fun c => decide ¬(c = '\t' ∨ c = '\r' ∨ c = '\n')

/-- Scheme detection of `urlsplit`: at the first `:`, if the part before it is
nonempty, starts with an ASCII letter and consists of scheme characters, it is
the (lowercased) scheme; otherwise there is no scheme. -/
def splitScheme (u : List Char) : List Char × List Char :=
  match splitFirst ':' u with
  | some (pre, rest) =>
    match pre with
    | [] => ([], u)
    | c :: _ => if c.isAlpha ∧ pre.all schemeCh then (pyLower pre, rest) else ([], u)
  | none => ([], u)

/-- Netloc extraction of `urlsplit` (`_splitnetloc`): after a leading `//`,
the netloc runs to the first of `/?#`. -/
def splitNetloc (u : List Char) : List Char × List Char :=
  if u.take 2 = ['/', '/'] then
    (((u.drop 2).takeWhile fun c => !stopCh c), ((u.drop 2).dropWhile fun c => !stopCh c))
  else ([], u)

/-- The mismatched-square-bracket netloc test that makes `urlsplit` raise
`ValueError("Invalid IPv6 URL")`. -/
def bracketBad (nl : List Char) : Prop :=
  ('[' ∈ nl ∧ ']' ∉ nl) ∨ (']' ∈ nl ∧ '[' ∉ nl)

instance (nl : List Char) : Decidable (bracketBad nl) := by
  unfold bracketBad; infer_instance

/-- Fragment split of `urlsplit`: at the first `#`, if any. -/
def splitFrag (u : List Char) : List Char × List Char :=
  match splitFirst '#' u with
  | some (pre, rest) => (pre, rest)
  | none => (u, [])

/-- Query split of `urlsplit`: at the first `?`, if any. -/
def splitQuery (u : List Char) : List Char × List Char :=
  match splitFirst '?' u with
  | some (pre, rest) => (pre, rest)
  | none => (u, [])

/-- `urllib.parse.urlsplit` (CPython 3.11): preprocess, detect and lowercase a
scheme at the first `:`, take the netloc (up to the first of `/?#`) after a
leading `//` (raising `Invalid IPv6 URL` on mismatched square brackets), then
split off fragment and query, in that order.  CPython has two further raise
paths that this model does not decide: `_check_bracketed_host` validates a
netloc containing matched square brackets, and the NFKC test `_checknetloc`
can reject a non-ASCII netloc; both return without raising whenever the
netloc is ASCII and bracket-free, so on that domain (and on every error this
model does report) the model is exact, and theorems whose truth would depend
on the undecided paths carry the domain as an explicit hypothesis. -/
def urlsplitList (url0 : List Char) : Except String SplitResult :=
  if bracketBad (splitNetloc (splitScheme (preClean url0)).2).1 then
    .error "Invalid IPv6 URL"
  else
    .ok ⟨(splitScheme (preClean url0)).1,
         (splitNetloc (splitScheme (preClean url0)).2).1,
         (splitQuery (splitFrag (splitNetloc (splitScheme (preClean url0)).2).2).1).1,
         (splitQuery (splitFrag (splitNetloc (splitScheme (preClean url0)).2).2).1).2,
         (splitFrag (splitNetloc (splitScheme (preClean url0)).2).2).2⟩

/-- Schemes for which CPython `urlunsplit` inserts `//` (`uses_netloc`). -/
def usesNetloc : List (List Char) :=
  [[], "ftp".data, "http".data, "gopher".data, "nntp".data, "telnet".data,
   "imap".data, "wais".data, "file".data, "mms".data, "https".data, "shttp".data,
   "snews".data, "prospero".data, "rtsp".data, "rtsps".data, "rtspu".data,
   "rsync".data, "svn".data, "svn+ssh".data, "sftp".data, "nfs".data,
   "git".data, "git+ssh".data, "ws".data, "wss".data]

/-- `urllib.parse.urlunsplit` (CPython 3.11). -/
def urlunsplitList (r : SplitResult) : List Char :=
  let url := r.path
  let url :=
    if r.netloc ≠ [] ∨ (r.scheme ≠ [] ∧ r.scheme ∈ usesNetloc ∧ url.take 2 ≠ ['/', '/']) then
      let url2 := if url ≠ [] ∧ url.take 1 ≠ ['/'] then '/' :: url else url
      '/' :: '/' :: (r.netloc ++ url2)
    else url
  let url := if r.scheme ≠ [] then r.scheme ++ ':' :: url else url
  let url := if r.query ≠ [] then url ++ '?' :: r.query else url
  if r.fragment ≠ [] then url ++ '#' :: r.fragment else url

/-- `re.sub(r"/+", "/", ·)`: collapse each run of slashes to a single slash. -/
def collapseSlashes : List Char → List Char
  | [] => []
  | [c] => [c]
  | a :: b :: t =>
    if a = '/' ∧ b = '/' then collapseSlashes (b :: t) else a :: collapseSlashes (b :: t)

/-- `_normalize_path` from src/app.py: collapse slash runs in `path or "/"`,
then strip one trailing slash unless the path is exactly `/`. -/
def normPath (p : List Char) : List Char :=
  let q := collapseSlashes (if p = [] then "/".data else p)
  if q ≠ "/".data ∧ q.getLast? = some '/' then q.dropLast else q

/-- A list of characters with no two adjacent slashes (the invariant
established by `collapseSlashes`). -/
def noDupSlash (l : List Char) : Prop :=
  l.Chain' fun a b => ¬(a = '/' ∧ b = '/')

instance (l : List Char) : Decidable (noDupSlash l) := by
  unfold noDupSlash; infer_instance

/-- The regex test `re.match(r"^[a-zA-Z][a-zA-Z0-9+.-]*://", s)` from
`normalize_input_url`. -/
def schemeReMatch : List Char → Bool
  | [] => false
  | c :: rest => c.isAlpha && decide ((rest.dropWhile schemeCh).take 3 = [':', '/', '/'])

/-- `normalize_input_url` from src/app.py on `List Char`. -/
def normalizeInputList (raw : List Char) : Except String (List Char) :=
  let s := pyStrip raw
  if s = [] then
    .error "Please enter a domain or URL, e.g. example.com or https://example.com/path"
  else
    match urlsplitList
        (if schemeReMatch s then s else "https://".data ++ s.dropWhile (· = '/')) with
    | .error e => .error e
    | .ok pu =>
      if pu.netloc = [] then
        .error "Invalid domain/URL. Try like example.com or https://example.com/path"
      else
        .ok (urlunsplitList ⟨pyLower pu.scheme, pyLower pu.netloc, normPath pu.path, [], []⟩)

/-- `normalize_input_url` at the `String` boundary. -/
def normalize_input_url (raw : String) : Except String String :=
  (normalizeInputList raw.data).map fun l => ⟨l⟩

/-- The string `normalize_input_url` passes to `urlsplit`: the stripped input,
with `https://` prepended (after removing leading slashes) when the scheme
regex does not match. -/
def inputPrepped (raw : List Char) : List Char :=
  let s := pyStrip raw
  if schemeReMatch s then s else "https://".data ++ s.dropWhile (· = '/')

/-- `ASSET_EXTS` from src/app.py. -/
def ASSET_EXTS : List (List Char) :=
  [".jpg".data, ".jpeg".data, ".png".data, ".gif".data, ".webp".data, ".avif".data,
   ".svg".data, ".ico".data,
   ".css".data, ".js".data, ".map".data,
   ".json".data, ".xml".data, ".rss".data, ".atom".data,
   ".pdf".data, ".doc".data, ".docx".data, ".xls".data, ".xlsx".data, ".ppt".data,
   ".pptx".data,
   ".zip".data, ".gz".data, ".tar".data, ".tgz".data, ".rar".data, ".7z".data,
   ".mp3".data, ".wav".data, ".m4a".data, ".ogg".data, ".webm".data, ".mp4".data,
   ".mov".data, ".avi".data,
   ".woff".data, ".woff2".data, ".ttf".data, ".otf".data, ".eot".data,
   ".dmg".data, ".exe".data, ".bin".data, ".apk".data]

/-- The host-scope test shared by both filters:
`host == base_host or (include_subdomains and host.endswith("." + base_host))`. -/
def hostInScope (base : List Char) (subs : Bool) (host : List Char) : Prop :=
  host = base ∨ (subs = true ∧ ('.' :: base).isSuffixOf host = true)

instance (base : List Char) (subs : Bool) (host : List Char) :
    Decidable (hostInScope base subs host) := by
  unfold hostInScope; infer_instance

/-- `any(lower.endswith(ext) for ext in ASSET_EXTS)`. -/
def assetHit (lower : List Char) : Bool :=
  ASSET_EXTS.any fun e => e.isSuffixOf lower

/-- `"." in lower and not lower.endswith((".html", ".htm", ".php"))`. -/
def dotDrop (lower : List Char) : Bool :=
  lower.contains '.' &&
    !(".html".data.isSuffixOf lower || ".htm".data.isSuffixOf lower ||
      ".php".data.isSuffixOf lower)

/-- The body of the `normalize_pages_only` loop for one raw URL: `.ok none`
means the URL is skipped, `.ok (some y)` that the canonical string `y` is
appended, `.error` that `urlsplit` raised. -/
def canonPages (base : List Char) (subs pqf : Bool) (u0 : List Char) :
    Except String (Option (List Char)) :=
  let u := pyStrip u0
  if u = [] then .ok none
  else
    match urlsplitList u with
    | .error e => .error e
    | .ok pu =>
      if ¬(pu.scheme = "http".data ∨ pu.scheme = "https".data) then .ok none
      else
        let host := pyLower pu.netloc
        if ¬ hostInScope base subs host then .ok none
        else
          let path := normPath pu.path
          let lower := pyLower path
          if assetHit lower then .ok none
          else if dotDrop lower then .ok none
          else
            let query := if pqf then pu.query else []
            let frag := if pqf then pu.fragment else []
            .ok (some (urlunsplitList ⟨pu.scheme, host, path, query, frag⟩))

/-- The body of the `normalize_internal_all` loop for one raw URL. -/
def canonAll (base : List Char) (subs pqf : Bool) (u0 : List Char) :
    Except String (Option (List Char)) :=
  let u := pyStrip u0
  if u = [] then .ok none
  else
    match urlsplitList u with
    | .error e => .error e
    | .ok pu =>
      if ¬(pu.scheme = "http".data ∨ pu.scheme = "https".data) then .ok none
      else
        let host := pyLower pu.netloc
        if ¬ hostInScope base subs host then .ok none
        else
          let path := normPath pu.path
          let query := if pqf then pu.query else []
          let frag := if pqf then pu.fragment else []
          .ok (some (urlunsplitList ⟨pu.scheme, host, path, query, frag⟩))

/-- Run a per-URL canonicalizer over the raw list, collecting the survivors in
order (the `out` list of the source before `sorted(set(out))`). -/
def collectWith (canon : List Char → Except String (Option (List Char))) :
    List (List Char) → Except String (List (List Char))
  | [] => .ok []
  | u :: t =>
    match canon u with
    | .error e => .error e
    | .ok o =>
      match collectWith canon t with
      | .error e => .error e
      | .ok r => .ok (match o with | none => r | some y => y :: r)

/-- Boolean code-point-lexicographic strict order on `List Char`; this is the
order Python uses to compare `str` values (and agrees with Lean's `List.lt`,
see `ltLC_iff_lt`). -/
def ltLC : List Char → List Char → Bool
  | [], [] => false
  | [], _ :: _ => true
  | _ :: _, [] => false
  | a :: as, b :: bs => if a < b then true else if b < a then false else ltLC as bs

/-- Insert into a strictly-sorted list, dropping duplicates. -/
def insertSorted (a : List Char) : List (List Char) → List (List Char)
  | [] => [a]
  | b :: t => if ltLC a b then a :: b :: t else if a = b then b :: t else b :: insertSorted a t

/-- Python `sorted(set(l))` for a list of strings: the distinct elements in
ascending lexicographic order. -/
def pySortedSet (l : List (List Char)) : List (List Char) := l.foldr insertSorted []

/-- `normalize_pages_only` from src/app.py. -/
def normalize_pages_only (urls : List String) (base_host : String)
    (include_subdomains preserve_qf : Bool) : Except String (List String) :=
  (collectWith (canonPages base_host.data include_subdomains preserve_qf)
      (urls.map String.data)).map
    fun out => (pySortedSet out).map fun l => (⟨l⟩ : String)

/-- `normalize_internal_all` from src/app.py. -/
def normalize_internal_all (urls : List String) (base_host : String)
    (include_subdomains preserve_qf : Bool) : Except String (List String) :=
  (collectWith (canonAll base_host.data include_subdomains preserve_qf)
      (urls.map String.data)).map
    fun out => (pySortedSet out).map fun l => (⟨l⟩ : String)

/-! ### Hierarchy aggregator (`render_treemap_go_from_urls`, data part)

The data computed by `render_treemap_go_from_urls` before handing off to the
plotly renderer: the `counts` Counter over segment-tuple nodes (with its key
set), the `example_url`, `leaf_first_url` and `leaf_multi` structures, and the
per-node id / hover text.  Dictionaries and the Counter are modelled by their
lookup functions plus an explicit first-insertion-order key list. -/

/-- A hierarchy node: `[host] ++ path segments`, as in the source's tuples. -/
abbrev Node := List (List Char)

/-- Python `s.split("/")` (keeping empty pieces). -/
def slashSplit : List Char → List (List Char)
  | [] => [[]]
  | c :: t =>
    let r := slashSplit t
    if c = '/' then [] :: r
    else
      match r with
      | [] => [[c]]
      | g :: gs => (c :: g) :: gs

/-- `[s for s in (path or "/").split("/") if s]`. -/
def pathParts (p : List Char) : List (List Char) :=
  (slashSplit (if p = [] then "/".data else p)).filter (· ≠ [])

/-- `chain = [host] + parts` with `host = pu.netloc or "/"`. -/
def chainOf (pu : SplitResult) : Node :=
  (if pu.netloc = [] then "/".data else pu.netloc) :: pathParts pu.path

/-- State of the aggregation loop in `render_treemap_go_from_urls`. -/
structure HAgg where
  countsF : Node → Nat
  countKeys : List Node
  exampleUrl : Node → Option (List Char)
  leafFirst : Node → Option (List Char)
  leafMulti : Node → Bool

/-- The empty loop state. -/
def hierInit : HAgg :=
  ⟨fun _ => 0, [], fun _ => none, fun _ => none, fun _ => false⟩

/-- One iteration of the inner `for i in range(k)` loop: bump `counts[node]`
and record the first example URL. -/
def hierStepNode (u : List Char) (st : HAgg) (node : Node) : HAgg :=
  { st with
    countsF := fun m => if m = node then st.countsF m + 1 else st.countsF m
    countKeys := if node ∈ st.countKeys then st.countKeys else st.countKeys ++ [node]
    exampleUrl := fun m =>
      if m = node then
        match st.exampleUrl node with
        | some v => some v
        | none => some u
      else st.exampleUrl m }

/-- The nodes the inner `for i in range(k)` loop visits for one URL: the
prefixes `chain[:i+1]` for `i < k = min(levels, len(chain))`. -/
def nodesOfPair (levels : Nat) (p : List Char × SplitResult) : List Node :=
  (List.range (min levels (chainOf p.2).length)).map fun i => (chainOf p.2).take (i + 1)

/-- The leaf node `chain[:k]` of one URL at `k = min(levels, len(chain))`. -/
def leafOfPair (levels : Nat) (p : List Char × SplitResult) : Node :=
  (chainOf p.2).take (min levels (chainOf p.2).length)

/-- The inner `for i in range(k)` loop of `render_treemap_go_from_urls` for
one URL: count every truncated-chain prefix and record example URLs. -/
def hierInner (levels : Nat) (st : HAgg) (p : List Char × SplitResult) : HAgg :=
  (nodesOfPair levels p).foldl (fun s nd => hierStepNode p.1 s nd) st

/-- One iteration of the outer `for u in urls` loop (with `pu = urlsplit(u)`
already taken): all truncated-chain prefixes `chain[:i+1]`, `i < k`, are
counted, then the leaf node `chain[:k]` is recorded (marked multiple when it
is already present in `leaf_first_url`). -/
def hierStepUrl (levels : Nat) (st : HAgg) (p : List Char × SplitResult) : HAgg :=
  if ((hierInner levels st p).leafFirst (leafOfPair levels p)).isSome then
    { hierInner levels st p with
      leafMulti := fun m => if m = leafOfPair levels p then true
        else (hierInner levels st p).leafMulti m }
  else
    { hierInner levels st p with
      leafFirst := fun m => if m = leafOfPair levels p then some p.1
        else (hierInner levels st p).leafFirst m }

/-- `urlsplit` applied to each URL in order (errors propagate as in Python). -/
def parseUrls : List (List Char) → Except String (List (List Char × SplitResult))
  | [] => .ok []
  | u :: t =>
    match urlsplitList u with
    | .error e => .error e
    | .ok pu =>
      match parseUrls t with
      | .error e => .error e
      | .ok r => .ok ((u, pu) :: r)

/-- The aggregation loop over already-parsed URLs. -/
def buildHierPure (levels : Nat) (prs : List (List Char × SplitResult)) : HAgg :=
  prs.foldl (hierStepUrl levels) hierInit

/-- The aggregation part of `render_treemap_go_from_urls`: clamp `levels` to a
minimum of 2 (`levels = max(2, int(levels))`) and run the loop. -/
def buildHier (urls : List (List Char)) (levels : Nat) : Except String HAgg :=
  (parseUrls urls).map (buildHierPure (max 2 levels))

/-- `build_hierarchy` at the `String` boundary. -/
def build_hierarchy (urls : List String) (levels : Nat) : Except String HAgg :=
  buildHier (urls.map String.data) levels

/-- `"|".join(node)`. -/
def joinPipe : List (List Char) → List Char
  | [] => []
  | [s] => s
  | s :: r :: t => s ++ '|' :: joinPipe (r :: t)

/-- The node identifier `"|" + "|".join(node)` from `render_treemap_go_from_urls`. -/
def nodeId (n : Node) : List Char := '|' :: joinPipe n

/-- `"/".join(segs)`. -/
def joinSlash : List (List Char) → List Char
  | [] => []
  | [s] => s
  | s :: r :: t => s ++ '/' :: joinSlash (r :: t)

/-- `node_prefix_url` from `render_treemap_go_from_urls`. -/
def nodePrefixUrl (st : HAgg) (n : Node) : List Char :=
  let scheme :=
    match st.exampleUrl n with
    | some ex =>
      match urlsplitList ex with
      | .ok pu => pu.scheme
      | .error _ => "https".data
    | none => "https".data
  let host := n.headD []
  let path := if n.length > 1 then '/' :: joinSlash n.tail else "/".data
  scheme ++ "://".data ++ host ++ path

/-- The `f"{counts[node]} URLs under {node_prefix_url(node)}"` hover text. -/
def countText (st : HAgg) (n : Node) : List Char :=
  (Nat.repr (st.countsF n)).data ++ " URLs under ".data ++ nodePrefixUrl st n

/-- The hover text attached to a node (`customdata` entry): a single-URL leaf
shows its URL verbatim, every other node shows the aggregate count text. -/
def hoverOf (st : HAgg) (n : Node) : List Char :=
  match st.leafFirst n with
  | some u => if st.leafMulti n then countText st n else u
  | none => countText st n

/-- Number of URLs whose truncated chain is exactly `n` (the URLs whose leaf
node is `n`). -/
def exactCount (levels : Nat) (prs : List (List Char × SplitResult)) (n : Node) : Nat :=
  prs.countP fun p => decide (leafOfPair levels p = n)

/-- The direct children of `n` among the emitted nodes, and the sum of their
counts (the right-hand side of the roll-up law). -/
def childrenOf (st : HAgg) (n : Node) : List Node :=
  st.countKeys.filter fun m => m.length = n.length + 1 ∧ m.take n.length = n

/-- Sum of the counts of the direct children of `n`. -/
def childSum (st : HAgg) (n : Node) : Nat :=
  ((childrenOf st n).map st.countsF).sum

/-! ### Order lemmas for `ltLC` and `pySortedSet` -/

theorem ltLC_iff_lt : ∀ a b : List Char, ltLC a b = true ↔ List.lt a b := by
  intro a
  induction a with
  | nil =>
    intro b
    cases b with
    | nil => simp [ltLC]; intro h; cases h
    | cons c t => simp [ltLC]; exact List.lt.nil c t
  | cons x xs ih =>
    intro b
    cases b with
    | nil =>
      simp [ltLC]; intro h; cases h
    | cons y ys =>
      simp only [ltLC]
      by_cases hxy : x < y
      · simp [hxy]
        exact List.lt.head xs ys hxy
      · by_cases hyx : y < x
        · simp [hxy, hyx]
          intro h
          cases h with
          | head _ _ h' => exact absurd h' hxy
          | tail h1 h2 _ => exact absurd hyx h2
        · simp [hxy, hyx]
          rw [ih ys]
          constructor
          · intro h; exact List.lt.tail hxy hyx h
          · intro h
            cases h with
            | head _ _ h' => exact absurd h' hxy
            | tail _ _ h' => exact h'

theorem ltLC_irrefl : ∀ a : List Char, ltLC a a = false := by
  intro a
  induction a with
  | nil => rfl
  | cons x xs ih => simp [ltLC, lt_irrefl, ih]

theorem ltLC_trans {a b c : List Char} (h1 : ltLC a b = true) (h2 : ltLC b c = true) :
    ltLC a c = true := by
  induction a generalizing b c with
  | nil =>
    cases c with
    | nil =>
      cases b with
      | nil => exact absurd h1 (by simp [ltLC])
      | cons y ys => exact absurd h2 (by simp [ltLC])
    | cons z zs => simp [ltLC]
  | cons x xs ih =>
    cases b with
    | nil => exact absurd h1 (by simp [ltLC])
    | cons y ys =>
      cases c with
      | nil => exact absurd h2 (by simp [ltLC])
      | cons z zs =>
        simp only [ltLC] at h1 h2 ⊢
        by_cases hxy : x < y
        · by_cases hyz : y < z
          · have hxz : x < z := lt_trans hxy hyz
            simp [hxz]
          · by_cases hzy : z < y
            · exact absurd h2 (by simp [hyz, hzy])
            · have hyzeq : y = z := le_antisymm (le_of_not_lt hzy) (le_of_not_lt hyz)
              subst hyzeq
              simp [hxy]
        · by_cases hyx : y < x
          · exact absurd h1 (by simp [hxy, hyx])
          · have hxyeq : x = y := le_antisymm (le_of_not_lt hyx) (le_of_not_lt hxy)
            subst hxyeq
            simp only [hxy, if_neg, lt_irrefl, if_false] at h1
            by_cases hyz : x < z
            · simp [hyz]
            · by_cases hzy : z < x
              · exact absurd h2 (by simp [hyz, hzy])
              · simp only [hyz, if_neg, hzy, if_false]
                simp only [if_neg hyz, if_neg hzy] at h2
                exact ih h1 h2

theorem ltLC_connex {a b : List Char} (h1 : ltLC a b = false) (h2 : a ≠ b) :
    ltLC b a = true := by
  induction a generalizing b with
  | nil =>
    cases b with
    | nil => exact absurd rfl h2
    | cons y ys => simp [ltLC] at h1
  | cons x xs ih =>
    cases b with
    | nil => simp [ltLC]
    | cons y ys =>
      simp only [ltLC] at h1 ⊢
      by_cases hxy : x < y
      · simp [hxy] at h1
      · by_cases hyx : y < x
        · simp [hyx]
        · have hxyeq : x = y := le_antisymm (le_of_not_lt hyx) (le_of_not_lt hxy)
          subst hxyeq
          simp only [lt_irrefl, if_false] at h1 ⊢
          have hne : xs ≠ ys := by
            intro h; exact h2 (by rw [h])
          exact ih h1 hne

theorem mem_insertSorted {a b : List Char} {l : List (List Char)} :
    b ∈ insertSorted a l ↔ b = a ∨ b ∈ l := by
  induction l with
  | nil => simp [insertSorted]
  | cons c t ih =>
    simp only [insertSorted]
    by_cases h1 : ltLC a c = true
    · rw [if_pos h1]
      simp only [List.mem_cons]
    · rw [if_neg h1]
      by_cases h2 : a = c
      · rw [if_pos h2]
        subst h2
        simp only [List.mem_cons]
        tauto
      · rw [if_neg h2]
        simp only [List.mem_cons, ih]
        tauto

theorem pairwise_insertSorted {a : List Char} {l : List (List Char)}
    (h : l.Pairwise fun x y => ltLC x y = true) :
    (insertSorted a l).Pairwise fun x y => ltLC x y = true := by
  induction l with
  | nil => simp [insertSorted]
  | cons c t ih =>
    rcases List.pairwise_cons.mp h with ⟨hc, ht⟩
    simp only [insertSorted]
    by_cases h1 : ltLC a c = true
    · rw [if_pos h1]
      refine List.pairwise_cons.mpr ⟨?_, h⟩
      intro b hb
      rcases List.mem_cons.mp hb with rfl | hb
      · exact h1
      · exact ltLC_trans h1 (hc b hb)
    · rw [if_neg h1]
      by_cases h2 : a = c
      · rw [if_pos h2]; exact h
      · rw [if_neg h2]
        refine List.pairwise_cons.mpr ⟨?_, ih ht⟩
        intro b hb
        rcases mem_insertSorted.mp hb with heq | hb
        · rw [heq]
          have h1f : ltLC a c = false := by
            revert h1; cases ltLC a c <;> simp
          exact ltLC_connex h1f h2
        · exact hc b hb

theorem pairwise_pySortedSet (l : List (List Char)) :
    (pySortedSet l).Pairwise fun x y => ltLC x y = true := by
  induction l with
  | nil => exact List.Pairwise.nil
  | cons a t ih => exact pairwise_insertSorted ih

theorem mem_pySortedSet {b : List Char} {l : List (List Char)} :
    b ∈ pySortedSet l ↔ b ∈ l := by
  induction l with
  | nil => simp [pySortedSet]
  | cons a t ih =>
    show b ∈ insertSorted a (pySortedSet t) ↔ _
    rw [mem_insertSorted]
    simp [ih]

theorem insertSorted_of_head_lt {a : List Char} {l : List (List Char)}
    (h : ∀ b ∈ l, ltLC a b = true) : insertSorted a l = a :: l := by
  cases l with
  | nil => rfl
  | cons c t =>
    have : ltLC a c = true := h c (by simp)
    simp [insertSorted, this]

theorem pySortedSet_fixpoint {l : List (List Char)}
    (h : l.Pairwise fun x y => ltLC x y = true) : pySortedSet l = l := by
  induction l with
  | nil => rfl
  | cons a t ih =>
    rcases List.pairwise_cons.mp h with ⟨ha, ht⟩
    show insertSorted a (pySortedSet t) = a :: t
    rw [ih ht]
    exact insertSorted_of_head_lt ha

/-! ### Properties of `collapseSlashes` and `normPath` -/

theorem collapse_head : ∀ (t : List Char) (b : Char), ∃ r, collapseSlashes (b :: t) = b :: r := by
  intro t
  induction t with
  | nil => exact fun b => ⟨[], rfl⟩
  | cons c t2 ih =>
    intro b
    by_cases h : b = '/' ∧ c = '/'
    · rcases ih c with ⟨r, hr⟩
      refine ⟨r, ?_⟩
      rw [collapseSlashes, if_pos h, hr, h.1, h.2]
    · exact ⟨collapseSlashes (c :: t2), by rw [collapseSlashes, if_neg h]⟩

theorem collapse_chain : ∀ l : List Char, noDupSlash (collapseSlashes l) := by
  intro l
  induction l with
  | nil => exact List.chain'_nil
  | cons a t ih =>
    cases t with
    | nil => exact List.chain'_singleton a
    | cons b t2 =>
      by_cases h : a = '/' ∧ b = '/'
      · rw [collapseSlashes, if_pos h]
        exact ih
      · rw [collapseSlashes, if_neg h]
        rcases collapse_head t2 b with ⟨r, hr⟩
        rw [hr]
        rw [hr] at ih
        exact List.chain'_cons.mpr ⟨h, ih⟩

theorem collapse_fix : ∀ l : List Char, noDupSlash l → collapseSlashes l = l := by
  intro l
  induction l with
  | nil => intro _; rfl
  | cons a t ih =>
    intro h
    cases t with
    | nil => rfl
    | cons b t2 =>
      rcases List.chain'_cons.mp h with ⟨hab, ht⟩
      rw [collapseSlashes, if_neg hab, ih ht]

theorem collapse_mem : ∀ (l : List Char) (c : Char), c ∈ collapseSlashes l → c ∈ l := by
  intro l
  induction l with
  | nil => intro c h; exact h
  | cons a t ih =>
    intro c h
    cases t with
    | nil => exact h
    | cons b t2 =>
      by_cases hab : a = '/' ∧ b = '/'
      · rw [collapseSlashes, if_pos hab] at h
        exact List.mem_cons_of_mem a (ih c h)
      · rw [collapseSlashes, if_neg hab] at h
        rcases List.mem_cons.mp h with rfl | h2
        · exact List.mem_cons_self c (b :: t2)
        · exact List.mem_cons_of_mem a (ih c h2)

theorem chain'_dropLast {R : Char → Char → Prop} :
    ∀ {l : List Char}, l.Chain' R → l.dropLast.Chain' R := by
  intro l
  induction l with
  | nil => intro _; exact List.chain'_nil
  | cons a t ih =>
    intro h
    rcases List.chain'_cons'.mp h with ⟨hhead, ht⟩
    cases t with
    | nil => exact List.chain'_nil
    | cons b t2 =>
      rw [List.dropLast_cons₂]
      refine List.chain'_cons'.mpr ⟨?_, ih ht⟩
      intro x hx
      cases t2 with
      | nil => cases hx
      | cons c t3 =>
        rw [List.dropLast_cons₂] at hx
        injection hx with hx
        subst hx
        exact hhead b rfl

theorem lastNe_dropLast :
    ∀ {q : List Char}, noDupSlash q → q.getLast? = some '/' → q ≠ ['/'] →
      q.dropLast.getLast? ≠ some '/' := by
  intro q
  induction q with
  | nil => intro _ h _; cases h
  | cons a t ih =>
    intro hch hlast hne
    cases t with
    | nil =>
      simp only [List.getLast?_singleton] at hlast
      injection hlast with hlast
      exact absurd (by rw [hlast]) hne
    | cons b t2 =>
      cases t2 with
      | nil =>
        have hb : b = '/' := by
          simp only [List.getLast?_cons_cons, List.getLast?_singleton] at hlast
          injection hlast
        rcases List.chain'_cons.mp hch with ⟨hab, _⟩
        have ha : a ≠ '/' := fun h => hab ⟨h, hb⟩
        show List.getLast? [a] ≠ some '/'
        simp only [List.getLast?_singleton]
        intro h
        injection h with h
        exact ha h
      | cons c t3 =>
        have hih := ih (List.chain'_cons.mp hch).2
          (by rw [List.getLast?_cons_cons] at hlast; exact hlast) (by simp)
        rw [List.dropLast_cons₂]
        cases hdl : (b :: c :: t3).dropLast with
        | nil => rw [List.dropLast_cons₂] at hdl; cases hdl
        | cons x xs =>
          rw [List.getLast?_cons_cons]
          rw [← hdl]
          rw [hdl] at hih ⊢
          exact hih

theorem normPath_eq (p q : List Char)
    (hq : collapseSlashes (if p = [] then "/".data else p) = q) :
    normPath p = if q ≠ "/".data ∧ q.getLast? = some '/' then q.dropLast else q := by
  subst hq; rfl

theorem collapse_input_cons (p : List Char) :
    ∃ b r, collapseSlashes (if p = [] then "/".data else p) = b :: r := by
  cases p with
  | nil =>
    exact ⟨'/', [], by rw [if_pos rfl]; decide⟩
  | cons x xs =>
    rcases collapse_head xs x with ⟨r, hr⟩
    exact ⟨x, r, by rw [if_neg (by simp), hr]⟩

theorem normPath_ne_nil : ∀ p : List Char, normPath p ≠ [] := by
  intro p
  rcases collapse_input_cons p with ⟨b, r, hbr⟩
  rw [normPath_eq p (b :: r) hbr]
  by_cases hcond : (b :: r ≠ "/".data ∧ (b :: r).getLast? = some '/')
  · rw [if_pos hcond]
    cases r with
    | nil =>
      simp only [List.getLast?_singleton] at hcond
      rcases hcond with ⟨hne, hlast⟩
      injection hlast with hlast
      exact absurd (by rw [hlast]) hne
    | cons d r2 => simp
  · rw [if_neg hcond]
    simp

theorem normPath_chain : ∀ p : List Char, noDupSlash (normPath p) := by
  intro p
  have h := collapse_chain (if p = [] then "/".data else p)
  rw [normPath_eq p _ rfl]
  by_cases hcond : (collapseSlashes (if p = [] then "/".data else p) ≠ "/".data ∧
      (collapseSlashes (if p = [] then "/".data else p)).getLast? = some '/')
  · rw [if_pos hcond]
    exact chain'_dropLast h
  · rw [if_neg hcond]
    exact h

theorem normPath_last :
    ∀ p : List Char, normPath p = "/".data ∨ (normPath p).getLast? ≠ some '/' := by
  intro p
  rw [normPath_eq p _ rfl]
  by_cases hcond : (collapseSlashes (if p = [] then "/".data else p) ≠ "/".data ∧
      (collapseSlashes (if p = [] then "/".data else p)).getLast? = some '/')
  · rw [if_pos hcond]
    exact Or.inr
      (lastNe_dropLast (collapse_chain (if p = [] then "/".data else p)) hcond.2
        (fun h => hcond.1 h))
  · rw [if_neg hcond]
    by_cases h1 : collapseSlashes (if p = [] then "/".data else p) = "/".data
    · exact Or.inl h1
    · right
      intro h2
      exact hcond ⟨h1, h2⟩

theorem normPath_fix :
    ∀ p : List Char, p ≠ [] → noDupSlash p → (p = "/".data ∨ p.getLast? ≠ some '/') →
      normPath p = p := by
  intro p hne hch hlast
  have hc : collapseSlashes (if p = [] then "/".data else p) = p := by
    rw [if_neg hne, collapse_fix p hch]
  rw [normPath_eq p p hc]
  rcases hlast with h | h
  · rw [if_neg]
    intro hcond
    exact hcond.1 h
  · rw [if_neg]
    intro hcond
    exact h hcond.2

theorem normPath_mem :
    ∀ (p : List Char) (c : Char), c ∈ normPath p → c ∈ p ∨ c = '/' := by
  intro p c h
  rw [normPath_eq p _ rfl] at h
  have h2 : c ∈ collapseSlashes (if p = [] then "/".data else p) := by
    by_cases hcond : (collapseSlashes (if p = [] then "/".data else p) ≠ "/".data ∧
        (collapseSlashes (if p = [] then "/".data else p)).getLast? = some '/')
    · rw [if_pos hcond] at h
      exact List.mem_of_mem_dropLast h
    · rw [if_neg hcond] at h
      exact h
  have h3 := collapse_mem _ c h2
  by_cases hp : p = []
  · rw [if_pos hp] at h3
    right
    rcases List.mem_singleton.mp h3 with rfl
    rfl
  · rw [if_neg hp] at h3
    exact Or.inl h3

theorem normPath_head :
    ∀ p : List Char, (p = [] ∨ p.head? = some '/') → (normPath p).head? = some '/' := by
  intro p hp
  have hinput : ∃ t, (if p = [] then "/".data else p) = '/' :: t := by
    rcases hp with rfl | hh
    · exact ⟨[], rfl⟩
    · cases p with
      | nil => exact ⟨[], rfl⟩
      | cons x xs =>
        injection hh with hh
        subst hh
        exact ⟨xs, by rw [if_neg (by simp)]⟩
  rcases hinput with ⟨t, ht⟩
  rcases collapse_head t '/' with ⟨r, hr⟩
  rw [normPath_eq p ('/' :: r) (by rw [ht, hr])]
  by_cases hcond : ('/' :: r ≠ "/".data ∧ ('/' :: r).getLast? = some '/')
  · rw [if_pos hcond]
    cases r with
    | nil => exact absurd rfl hcond.1
    | cons d r2 =>
      rw [List.dropLast_cons₂]
      rfl
  · rw [if_neg hcond]
    rfl

/-! ### Inversion lemmas for the per-URL filter bodies -/

theorem canonAll_some_iff {base : List Char} {subs pqf : Bool} {u0 : List Char}
    {pu : SplitResult} (hne : pyStrip u0 ≠ []) (hp : urlsplitList (pyStrip u0) = .ok pu)
    {y : List Char} :
    canonAll base subs pqf u0 = .ok (some y) ↔
      ((pu.scheme = "http".data ∨ pu.scheme = "https".data) ∧
       hostInScope base subs (pyLower pu.netloc) ∧
       y = urlunsplitList ⟨pu.scheme, pyLower pu.netloc, normPath pu.path,
             if pqf then pu.query else [], if pqf then pu.fragment else []⟩) := by
  unfold canonAll
  rw [if_neg hne]
  split
  · next e he =>
    rw [hp] at he
    cases he
  · next pu' hpu' =>
    rw [hp] at hpu'
    injection hpu' with h
    subst h
    by_cases hs : pu.scheme = "http".data ∨ pu.scheme = "https".data
    · rw [if_neg (not_not_intro hs)]
      by_cases hh : hostInScope base subs (pyLower pu.netloc)
      · rw [if_neg (not_not_intro hh)]
        simp [hs, hh, eq_comm]
      · rw [if_pos hh]
        simp [hh]
    · rw [if_pos hs]
      simp [hs]

theorem canonPages_some_iff {base : List Char} {subs pqf : Bool} {u0 : List Char}
    {pu : SplitResult} (hne : pyStrip u0 ≠ []) (hp : urlsplitList (pyStrip u0) = .ok pu)
    {y : List Char} :
    canonPages base subs pqf u0 = .ok (some y) ↔
      ((pu.scheme = "http".data ∨ pu.scheme = "https".data) ∧
       hostInScope base subs (pyLower pu.netloc) ∧
       assetHit (pyLower (normPath pu.path)) = false ∧
       dotDrop (pyLower (normPath pu.path)) = false ∧
       y = urlunsplitList ⟨pu.scheme, pyLower pu.netloc, normPath pu.path,
             if pqf then pu.query else [], if pqf then pu.fragment else []⟩) := by
  unfold canonPages
  rw [if_neg hne]
  split
  · next e he =>
    rw [hp] at he
    cases he
  · next pu' hpu' =>
    rw [hp] at hpu'
    injection hpu' with h
    subst h
    by_cases hs : pu.scheme = "http".data ∨ pu.scheme = "https".data
    · rw [if_neg (not_not_intro hs)]
      by_cases hh : hostInScope base subs (pyLower pu.netloc)
      · rw [if_neg (not_not_intro hh)]
        by_cases ha : assetHit (pyLower (normPath pu.path)) = true
        · rw [if_pos ha]
          simp [ha]
        · rw [if_neg ha]
          by_cases hd : dotDrop (pyLower (normPath pu.path)) = true
          · rw [if_pos hd]
            simp [hd]
          · rw [if_neg hd]
            simp only [Bool.not_eq_true] at ha hd
            simp [hs, hh, ha, hd, eq_comm]
      · rw [if_pos hh]
        simp [hh]
    · rw [if_pos hs]
      simp [hs]

theorem canonPages_none_of_cond {base : List Char} {subs pqf : Bool} {u0 : List Char}
    {pu : SplitResult} (hne : pyStrip u0 ≠ []) (hp : urlsplitList (pyStrip u0) = .ok pu)
    (hcond : assetHit (pyLower (normPath pu.path)) = true ∨
      dotDrop (pyLower (normPath pu.path)) = true) :
    canonPages base subs pqf u0 = .ok none := by
  unfold canonPages
  rw [if_neg hne]
  split
  · next e he =>
    rw [hp] at he
    cases he
  · next pu' hpu' =>
    rw [hp] at hpu'
    injection hpu' with h
    subst h
    by_cases hs : pu.scheme = "http".data ∨ pu.scheme = "https".data
    · rw [if_neg (not_not_intro hs)]
      by_cases hh : hostInScope base subs (pyLower pu.netloc)
      · rw [if_neg (not_not_intro hh)]
        rcases hcond with ha | hd
        · rw [if_pos ha]
        · by_cases ha : assetHit (pyLower (normPath pu.path)) = true
          · rw [if_pos ha]
          · rw [if_neg ha, if_pos hd]
      · rw [if_pos hh]
    · rw [if_pos hs]

theorem canonPages_sub {base : List Char} {subs pqf : Bool} {u0 y : List Char}
    (h : canonPages base subs pqf u0 = .ok (some y)) :
    canonAll base subs pqf u0 = .ok (some y) := by
  by_cases hne : pyStrip u0 = []
  · unfold canonPages at h
    rw [if_pos hne] at h
    cases h
  · rcases he : urlsplitList (pyStrip u0) with e | pu
    · unfold canonPages at h
      rw [if_neg hne] at h
      split at h
      · cases h
      · next pu' hpu' => rw [he] at hpu'; cases hpu'
    · rcases (canonPages_some_iff hne he).mp h with ⟨hs, hh, _, _, hy⟩
      exact (canonAll_some_iff hne he).mpr ⟨hs, hh, hy⟩

theorem canon_error_agree {base : List Char} {subs pqf : Bool} {u0 : List Char} {e : String} :
    canonPages base subs pqf u0 = .error e ↔ canonAll base subs pqf u0 = .error e := by
  unfold canonPages canonAll
  by_cases hne : pyStrip u0 = []
  · rw [if_pos hne, if_pos hne]
  · rw [if_neg hne, if_neg hne]
    rcases he : urlsplitList (pyStrip u0) with er | pu
    · simp [he]
    · simp only [he]
      split_ifs <;> simp

theorem stringLt_of_ltLC {a b : List Char} (h : ltLC a b = true) :
    (⟨a⟩ : String) < (⟨b⟩ : String) := by
  rw [String.lt_iff_toList_lt]
  exact (List.lt_iff_lex_lt a b).mp ((ltLC_iff_lt a b).mp h)

theorem collect_sub {base : List Char} {subs pqf : Bool} : ∀ {urls lp la : List (List Char)},
    collectWith (canonPages base subs pqf) urls = .ok lp →
    collectWith (canonAll base subs pqf) urls = .ok la →
    ∀ x, x ∈ lp → x ∈ la := by
  intro urls
  induction urls with
  | nil =>
    intro lp la h1 h2 x hx
    injection h1 with h1
    subst h1
    cases hx
  | cons u t ih =>
    intro lp la h1 h2 x hx
    rcases hcu : canonPages base subs pqf u with e | o
    · rw [collectWith, hcu] at h1
      cases h1
    · rcases hct : collectWith (canonPages base subs pqf) t with e | r
      · rw [collectWith, hcu, hct] at h1
        cases h1
      · rw [collectWith, hcu, hct] at h1
        injection h1 with h1
        rcases hau : canonAll base subs pqf u with e | o2
        · exact absurd (canon_error_agree.mpr hau) (by rw [hcu]; simp)
        · rcases hat : collectWith (canonAll base subs pqf) t with e | r2
          · rw [collectWith, hau, hat] at h2
            cases h2
          · rw [collectWith, hau, hat] at h2
            injection h2 with h2
            subst h1
            subst h2
            cases o with
            | none =>
              have hr2 : x ∈ r2 := ih hct hat x hx
              cases o2 with
              | none => exact hr2
              | some y2 => exact List.mem_cons_of_mem y2 hr2
            | some y =>
              have : canonAll base subs pqf u = .ok (some y) := canonPages_sub hcu
              rw [hau] at this
              injection this with this
              subst this
              rcases List.mem_cons.mp hx with rfl | hx2
              · exact List.mem_cons_self x r2
              · exact List.mem_cons_of_mem y (ih hct hat x hx2)

/-- C10: with the same base host and flags, every URL produced by pages-only
filtering also appears in the output of all-internal filtering. -/
theorem claim_C10 (urls : List String) (base : String) (subs pqf : Bool)
    (po ao : List String)
    (hP : normalize_pages_only urls base subs pqf = .ok po)
    (hA : normalize_internal_all urls base subs pqf = .ok ao) :
    ∀ y ∈ po, y ∈ ao := by
  intro y hy
  unfold normalize_pages_only at hP
  unfold normalize_internal_all at hA
  rcases hcp : collectWith (canonPages base.data subs pqf) (urls.map String.data) with e | lp
  · rw [hcp] at hP
    cases hP
  · rcases hca : collectWith (canonAll base.data subs pqf) (urls.map String.data) with e | la
    · rw [hca] at hA
      cases hA
    · rw [hcp] at hP
      rw [hca] at hA
      injection hP with hP
      injection hA with hA
      subst hP
      subst hA
      rcases List.mem_map.mp hy with ⟨x, hx, rfl⟩
      exact List.mem_map_of_mem _
        (mem_pySortedSet.mpr (collect_sub hcp hca x (mem_pySortedSet.mp hx)))

/-- Witness for C10 at a concrete input: the pages-only output of a two-URL
list is contained in the all-internal output. -/
theorem claim_C10_witness :
    ("https://x.com/page" : String) ∈
      (["https://x.com/a.jpg", "https://x.com/page"] : List String) :=
  claim_C10 ["https://x.com/page", "https://x.com/a.jpg"] "x.com" false false
    ["https://x.com/page"] ["https://x.com/a.jpg", "https://x.com/page"]
    (by decide) (by decide) "https://x.com/page" (by decide)

/-- C9: the output of both filter modes is duplicate-free and sorted in
ascending lexicographic (code-point) order of the canonical URL string; the
functions are deterministic (they are functions of their arguments). -/
theorem claim_C9 (urls : List String) (base : String) (subs pqf : Bool)
    (out : List String) :
    (normalize_pages_only urls base subs pqf = .ok out →
      out.Pairwise (· < ·) ∧ out.Nodup) ∧
    (normalize_internal_all urls base subs pqf = .ok out →
      out.Pairwise (· < ·) ∧ out.Nodup) := by
  constructor
  · intro h
    unfold normalize_pages_only at h
    rcases hc : collectWith (canonPages base.data subs pqf) (urls.map String.data) with e | l
    · rw [hc] at h
      cases h
    · rw [hc] at h
      injection h with h
      subst h
      have hp : ((pySortedSet l).map fun x => (⟨x⟩ : String)).Pairwise (· < ·) := by
        rw [List.pairwise_map]
        exact (pairwise_pySortedSet l).imp stringLt_of_ltLC
      exact ⟨hp, hp.imp ne_of_lt⟩
  · intro h
    unfold normalize_internal_all at h
    rcases hc : collectWith (canonAll base.data subs pqf) (urls.map String.data) with e | l
    · rw [hc] at h
      cases h
    · rw [hc] at h
      injection h with h
      subst h
      have hp : ((pySortedSet l).map fun x => (⟨x⟩ : String)).Pairwise (· < ·) := by
        rw [List.pairwise_map]
        exact (pairwise_pySortedSet l).imp stringLt_of_ltLC
      exact ⟨hp, hp.imp ne_of_lt⟩

/-- Witness for C9 at a concrete input: an unsorted two-URL list comes out
sorted and duplicate-free. -/
theorem claim_C9_witness :
    (["https://x.com/a", "https://x.com/b"] : List String).Pairwise (· < ·) ∧
    (["https://x.com/a", "https://x.com/b"] : List String).Nodup :=
  (claim_C9 ["https://x.com/b", "https://x.com/a", "https://x.com/b"] "x.com" false false
    ["https://x.com/a", "https://x.com/b"]).1 (by decide)

theorem strip_ne_of_scheme {u0 : List Char} {pu : SplitResult}
    (hp : urlsplitList (pyStrip u0) = .ok pu)
    (hs : pu.scheme = "http".data ∨ pu.scheme = "https".data) : pyStrip u0 ≠ [] := by
  intro h
  rw [h] at hp
  have hnil : urlsplitList ([] : List Char) = .ok ⟨[], [], [], [], []⟩ := by decide
  rw [hnil] at hp
  injection hp with hp
  subst hp
  rcases hs with h1 | h1 <;> exact absurd h1 (by decide)

/-- C8 (amended): in both filter modes a URL with scheme http/https is kept
only if its lowercased host equals the base host or (with subdomains enabled)
ends in "." + base host; in all-internal mode this host condition is also
sufficient, so there "kept iff in scope" holds.  In pages-only mode the host
condition is necessary but not sufficient (see the counterexample).  The
blog.x.com subdomain examples behave as the claim states. -/
theorem claim_C8 (u0 base : List Char) (subs pqf : Bool) (pu : SplitResult)
    (hp : urlsplitList (pyStrip u0) = .ok pu)
    (hs : pu.scheme = "http".data ∨ pu.scheme = "https".data) :
    ((∀ y, canonPages base subs pqf u0 = .ok (some y) →
        hostInScope base subs (pyLower pu.netloc)) ∧
     (∀ y, canonAll base subs pqf u0 = .ok (some y) →
        hostInScope base subs (pyLower pu.netloc)) ∧
     (hostInScope base subs (pyLower pu.netloc) →
        ∃ y, canonAll base subs pqf u0 = .ok (some y))) ∧
    normalize_internal_all ["https://blog.x.com/a"] "x.com" false false = .ok [] ∧
    normalize_internal_all ["https://blog.x.com/a"] "x.com" true false =
      .ok ["https://blog.x.com/a"] := by
  have hne := strip_ne_of_scheme hp hs
  refine ⟨⟨?_, ?_, ?_⟩, by decide, by decide⟩
  · intro y h
    exact ((canonPages_some_iff hne hp).mp h).2.1
  · intro y h
    exact ((canonAll_some_iff hne hp).mp h).2.1
  · intro hh
    exact ⟨_, (canonAll_some_iff hne hp).mpr ⟨hs, hh, rfl⟩⟩

/-- Counterexample to C8 as stated: in pages-only mode, the URL
https://x.com/a.jpg has scheme https and its host x.com is in scope for base
host x.com, yet the URL is not kept (the output is empty), so "kept if and
only if the host condition holds" fails for the pages-only mode. -/
theorem claim_C8_cex :
    hostInScope "x.com".data false (pyLower "x.com".data) ∧
    normalize_pages_only ["https://x.com/a.jpg"] "x.com" false false = .ok [] ∧
    canonPages "x.com".data false false "https://x.com/a.jpg".data = .ok none :=
  ⟨by decide, by decide, by decide⟩

/-- Witness for C8 at a concrete input: blog.x.com is in scope for base host
x.com once subdomains are included. -/
theorem claim_C8_witness : hostInScope "x.com".data true (pyLower "blog.x.com".data) :=
  (claim_C8 "https://blog.x.com/a".data "x.com".data true false
    ⟨"https".data, "blog.x.com".data, "/a".data, [], []⟩ (by decide)
    (Or.inr (by decide))).1.2.1 "https://blog.x.com/a".data (by decide)

/-- C5: pages-only filtering drops every URL whose lowercased normalized path
ends in a listed static-asset extension, and every URL whose path contains a
dot without ending in .html/.htm/.php; the concrete three-URL example keeps
exactly https://x.com/about.html (extension unmodified) and
https://x.com/page. -/
theorem claim_C5 (u0 base : List Char) (subs pqf : Bool) (pu : SplitResult)
    (hp : urlsplitList (pyStrip u0) = .ok pu)
    (hcond : assetHit (pyLower (normPath pu.path)) = true ∨
      dotDrop (pyLower (normPath pu.path)) = true) :
    normalize_pages_only ["https://x.com/a.jpg", "https://x.com/page", "https://x.com/about.html"]
        "x.com" false false = .ok ["https://x.com/about.html", "https://x.com/page"] ∧
    canonPages base subs pqf u0 = .ok none := by
  have hne : pyStrip u0 ≠ [] := by
    intro h
    rw [h] at hp
    have hnil : urlsplitList ([] : List Char) = .ok ⟨[], [], [], [], []⟩ := by decide
    rw [hnil] at hp
    injection hp with hp
    subst hp
    rcases hcond with h1 | h1 <;> exact absurd h1 (by decide)
  exact ⟨by decide, canonPages_none_of_cond hne hp hcond⟩

/-- Witness for C5 at a concrete input: https://x.com/a.jpg is dropped by the
pages-only filter. -/
theorem claim_C5_witness :
    normalize_pages_only ["https://x.com/a.jpg", "https://x.com/page", "https://x.com/about.html"]
        "x.com" false false = .ok ["https://x.com/about.html", "https://x.com/page"] ∧
    canonPages "x.com".data false false "https://x.com/a.jpg".data = .ok none :=
  claim_C5 "https://x.com/a.jpg".data "x.com".data false false
    ⟨"https".data, "x.com".data, "/a.jpg".data, [], []⟩ (by decide) (Or.inl (by decide))

/-! ### `normalize_input_url`: claims C3 and C4 -/

theorem strip_ne_of_netloc {raw : List Char} {pu : SplitResult}
    (hp : urlsplitList (inputPrepped raw) = .ok pu) (hn : pu.netloc ≠ []) :
    pyStrip raw ≠ [] := by
  intro h
  have hpre : inputPrepped raw = "https://".data := by
    unfold inputPrepped
    rw [h]
    decide
  rw [hpre] at hp
  have h2 : urlsplitList "https://".data = .ok ⟨"https".data, [], [], [], []⟩ := by decide
  rw [h2] at hp
  injection hp with hp
  subst hp
  exact hn rfl

theorem normalizeInput_ok {raw : List Char} {pu : SplitResult}
    (hp : urlsplitList (inputPrepped raw) = .ok pu) (hn : pu.netloc ≠ []) :
    normalizeInputList raw =
      .ok (urlunsplitList ⟨pyLower pu.scheme, pyLower pu.netloc, normPath pu.path, [], []⟩) := by
  have hne := strip_ne_of_netloc hp hn
  unfold normalizeInputList
  rw [if_neg hne]
  have hip : (if schemeReMatch (pyStrip raw) then pyStrip raw
      else "https://".data ++ (pyStrip raw).dropWhile (· = '/')) = inputPrepped raw := rfl
  rw [hip]
  split
  · next e he =>
    rw [hp] at he
    cases he
  · next pu' hpu' =>
    rw [hp] at hpu'
    injection hpu' with h
    subst h
    rw [if_neg hn]

/-- C3: `normalize_input_url("york.com") = "https://york.com/"` and
`normalize_input_url("https://york.com/home/") = "https://york.com/home"`;
in general, whenever the prepared input (stripped, `https://` prepended when
the scheme regex does not match) parses to a non-empty netloc, the result is
the reassembled URL with lowercased scheme and host, normalized path (no
slash runs, no trailing slash except for the root path, empty path becomes
`/`) and query and fragment stripped. -/
theorem claim_C3 (raw : String) (pu : SplitResult)
    (hp : urlsplitList (inputPrepped raw.data) = .ok pu) (hn : pu.netloc ≠ []) :
    normalize_input_url "york.com" = .ok "https://york.com/" ∧
    normalize_input_url "https://york.com/home/" = .ok "https://york.com/home" ∧
    normalize_input_url raw =
      .ok ⟨urlunsplitList ⟨pyLower pu.scheme, pyLower pu.netloc, normPath pu.path, [], []⟩⟩ ∧
    (schemeReMatch (pyStrip raw.data) = false →
      inputPrepped raw.data = "https://".data ++ (pyStrip raw.data).dropWhile (· = '/')) ∧
    noDupSlash (normPath pu.path) ∧
    (normPath pu.path = "/".data ∨ (normPath pu.path).getLast? ≠ some '/') ∧
    (pu.path = [] → normPath pu.path = "/".data) := by
  refine ⟨by decide, by decide, ?_, ?_, normPath_chain _, normPath_last _, ?_⟩
  · unfold normalize_input_url
    rw [normalizeInput_ok hp hn]
    rfl
  · intro hre
    unfold inputPrepped
    rw [if_neg (by rw [hre]; intro h; cases h)]
  · intro h
    rw [h]
    decide

/-- Witness for C3 at a concrete input. -/
theorem claim_C3_witness : normalize_input_url "york.com" = .ok "https://york.com/" :=
  (claim_C3 "york.com" ⟨"https".data, "york.com".data, [], [], []⟩ (by decide)
    (by decide)).1

theorem normalizeInput_error {raw : List Char} {e : String}
    (hs : pyStrip raw ≠ []) (hu : urlsplitList (inputPrepped raw) = .error e) :
    normalizeInputList raw = .error e := by
  unfold normalizeInputList
  rw [if_neg hs]
  have hip : (if schemeReMatch (pyStrip raw) then pyStrip raw
      else "https://".data ++ (pyStrip raw).dropWhile (· = '/')) = inputPrepped raw := rfl
  rw [hip]
  split
  · next e' he' =>
    rw [hu] at he'
    injection he' with he'
    rw [he']
  · next pu' hpu' =>
    rw [hu] at hpu'
    cases hpu'

/-- C4 (amended): the spec's two error conditions are not exhaustive.
`normalize_input_url` raises with the exact empty-input message when the
stripped input is empty; it propagates `Invalid IPv6 URL` when the netloc of
the prepared input has mismatched square brackets (CPython's bracketed-host
and NFKC netloc checks can raise on further netlocs, outside this model); it
raises the invalid-domain message when the prepared input parses to an empty
netloc; and when the prepared input parses to a non-empty, ASCII,
bracket-free netloc — the domain on which the `urlsplit` model is exact — it
returns the reassembled URL without raising. -/
theorem claim_C4 (raw : String) :
    (pyStrip raw.data = [] →
      normalize_input_url raw =
        .error "Please enter a domain or URL, e.g. example.com or https://example.com/path") ∧
    (pyStrip raw.data ≠ [] →
      bracketBad (splitNetloc (splitScheme (preClean (inputPrepped raw.data))).2).1 →
      normalize_input_url raw = .error "Invalid IPv6 URL") ∧
    (∀ pu, urlsplitList (inputPrepped raw.data) = .ok pu → pu.netloc = [] →
      pyStrip raw.data ≠ [] →
      normalize_input_url raw =
        .error "Invalid domain/URL. Try like example.com or https://example.com/path") ∧
    (∀ pu, urlsplitList (inputPrepped raw.data) = .ok pu → pu.netloc ≠ [] →
      (∀ c ∈ pu.netloc, c.toNat < 128 ∧ c ≠ '[') →
      normalize_input_url raw =
        .ok ⟨urlunsplitList ⟨pyLower pu.scheme, pyLower pu.netloc,
          normPath pu.path, [], []⟩⟩) := by
  refine ⟨?_, ?_, ?_, ?_⟩
  · intro hs
    unfold normalize_input_url normalizeInputList
    rw [if_pos hs]
    rfl
  · intro hs hb
    have hu : urlsplitList (inputPrepped raw.data) = .error "Invalid IPv6 URL" := by
      unfold urlsplitList
      rw [if_pos hb]
    unfold normalize_input_url
    rw [normalizeInput_error hs hu]
    rfl
  · intro pu hu hn hs
    unfold normalize_input_url normalizeInputList
    rw [if_neg hs]
    have hip : (if schemeReMatch (pyStrip raw.data) then pyStrip raw.data
        else "https://".data ++ (pyStrip raw.data).dropWhile (· = '/')) =
        inputPrepped raw.data := rfl
    rw [hip]
    split
    · next e' he' =>
      rw [hu] at he'
      cases he'
    · next pu' hpu' =>
      rw [hu] at hpu'
      injection hpu' with h
      subst h
      rw [if_pos hn]
      rfl
  · intro pu hu hn _hdom
    unfold normalize_input_url
    rw [normalizeInput_ok hu hn]
    rfl

/-- Counterexample to C4 as stated: the input "https://[x" is non-empty after
trimming and its parse does not yield an empty host — `urlsplit` raises
instead — yet `normalize_input_url` raises (with the urlsplit message, not an
InvalidURL message). -/
theorem claim_C4_cex :
    normalize_input_url "https://[x" = .error "Invalid IPv6 URL" ∧
    pyStrip "https://[x".data ≠ [] ∧
    urlsplitList (inputPrepped "https://[x".data) = .error "Invalid IPv6 URL" :=
  ⟨by decide, by decide, by decide⟩

/-- Witness for C4 at concrete inputs: the empty string fails with the exact
empty-input message, and a bare ASCII domain succeeds. -/
theorem claim_C4_witness :
    normalize_input_url "" =
      .error "Please enter a domain or URL, e.g. example.com or https://example.com/path" ∧
    normalize_input_url "york.com" =
      .ok ⟨urlunsplitList ⟨pyLower "https".data, pyLower "york.com".data,
        normPath [], [], []⟩⟩ :=
  ⟨(claim_C4 "").1 (by decide),
   (claim_C4 "york.com").2.2.2 ⟨"https".data, "york.com".data, [], [], []⟩
     (by decide) (by decide) (by decide)⟩

/-! ### Bridge lemmas for the hierarchy aggregation fold -/

theorem hierStepNode_countsF (u : List Char) (st : HAgg) (nd n : Node) :
    (hierStepNode u st nd).countsF n =
      if n = nd then st.countsF n + 1 else st.countsF n := rfl

theorem countP_eq_ite_of_nodup {l : List Node} (hnd : l.Nodup) (n : Node) :
    (l.countP fun m => decide (m = n)) = if n ∈ l then 1 else 0 := by
  induction l with
  | nil => simp
  | cons a t ih =>
    rcases List.nodup_cons.mp hnd with ⟨hna, hnt⟩
    rw [List.countP_cons]
    by_cases h : a = n
    · subst h
      have ht : (t.countP fun m => decide (m = a)) = 0 := by
        rw [List.countP_eq_zero]
        intro m hm
        simp only [decide_eq_true_eq]
        intro hc
        subst hc
        exact hna hm
      rw [ht]
      simp
    · rw [ih hnt]
      have hd : (if decide (a = n) = true then 1 else 0) = 0 := by
        simp [h]
      rw [hd, Nat.add_zero]
      by_cases hm : n ∈ t
      · rw [if_pos hm, if_pos (List.mem_cons_of_mem a hm)]
      · rw [if_neg hm,
          if_neg (fun hc => (List.mem_cons.mp hc).elim (fun h1 => h h1.symm) hm)]

theorem innerFold_countsF (u : List Char) : ∀ (nodes : List Node) (st : HAgg) (n : Node),
    ((nodes.foldl (fun s nd => hierStepNode u s nd) st).countsF n) =
      st.countsF n + (nodes.countP fun m => decide (m = n)) := by
  intro nodes
  induction nodes with
  | nil => intro st n; simp
  | cons nd t ih =>
    intro st n
    rw [List.foldl_cons, ih, hierStepNode_countsF, List.countP_cons]
    by_cases h : n = nd
    · rw [if_pos h, if_pos (decide_eq_true h.symm)]
      omega
    · rw [if_neg h, if_neg (by simp only [decide_eq_true_eq]; exact fun hc => h hc.symm)]
      omega

theorem innerFold_keys (u : List Char) : ∀ (nodes : List Node) (st : HAgg) (n : Node),
    (n ∈ (nodes.foldl (fun s nd => hierStepNode u s nd) st).countKeys ↔
      n ∈ st.countKeys ∨ n ∈ nodes) := by
  intro nodes
  induction nodes with
  | nil => intro st n; simp
  | cons nd t ih =>
    intro st n
    rw [List.foldl_cons, ih]
    show n ∈ (if nd ∈ st.countKeys then st.countKeys else st.countKeys ++ [nd]) ∨ n ∈ t ↔ _
    by_cases h : nd ∈ st.countKeys
    · rw [if_pos h]
      constructor
      · rintro (h1 | h1)
        · exact Or.inl h1
        · exact Or.inr (List.mem_cons_of_mem nd h1)
      · rintro (h1 | h1)
        · exact Or.inl h1
        · rcases List.mem_cons.mp h1 with rfl | h2
          · exact Or.inl h
          · exact Or.inr h2
    · rw [if_neg h]
      simp only [List.mem_append, List.mem_singleton, List.mem_cons]
      tauto

theorem innerFold_keys_nodup (u : List Char) : ∀ (nodes : List Node) (st : HAgg),
    st.countKeys.Nodup →
      (nodes.foldl (fun s nd => hierStepNode u s nd) st).countKeys.Nodup := by
  intro nodes
  induction nodes with
  | nil => intro st h; exact h
  | cons nd t ih =>
    intro st h
    rw [List.foldl_cons]
    apply ih
    show (if nd ∈ st.countKeys then st.countKeys else st.countKeys ++ [nd]).Nodup
    by_cases hm : nd ∈ st.countKeys
    · rw [if_pos hm]; exact h
    · rw [if_neg hm]
      simp [List.nodup_append, h, hm]

theorem innerFold_leafFirst (u : List Char) : ∀ (nodes : List Node) (st : HAgg),
    (nodes.foldl (fun s nd => hierStepNode u s nd) st).leafFirst = st.leafFirst := by
  intro nodes
  induction nodes with
  | nil => intro st; rfl
  | cons nd t ih =>
    intro st
    rw [List.foldl_cons, ih]
    rfl

theorem innerFold_leafMulti (u : List Char) : ∀ (nodes : List Node) (st : HAgg),
    (nodes.foldl (fun s nd => hierStepNode u s nd) st).leafMulti = st.leafMulti := by
  intro nodes
  induction nodes with
  | nil => intro st; rfl
  | cons nd t ih =>
    intro st
    rw [List.foldl_cons, ih]
    rfl

theorem nodesOfPair_nodup (levels : Nat) (p : List Char × SplitResult) :
    (nodesOfPair levels p).Nodup := by
  unfold nodesOfPair
  refine List.Nodup.map_on ?_ (List.nodup_range _)
  intro i hi j hj hij
  rw [List.mem_range] at hi hj
  have hi' : i + 1 ≤ (chainOf p.2).length := le_trans hi (min_le_right _ _)
  have hj' : j + 1 ≤ (chainOf p.2).length := le_trans hj (min_le_right _ _)
  have hlen := congrArg List.length hij
  rw [List.length_take, List.length_take] at hlen
  omega

theorem nodesOfPair_mem_iff (levels : Nat) (p : List Char × SplitResult) (n : Node) :
    n ∈ nodesOfPair levels p ↔
      (1 ≤ n.length ∧ n.length ≤ min levels (chainOf p.2).length ∧
        (chainOf p.2).take n.length = n) := by
  unfold nodesOfPair
  rw [List.mem_map]
  constructor
  · rintro ⟨i, hi, rfl⟩
    rw [List.mem_range] at hi
    have hi' : i + 1 ≤ (chainOf p.2).length := le_trans hi (min_le_right _ _)
    have hlt : ((chainOf p.2).take (i + 1)).length = i + 1 := by
      rw [List.length_take]
      omega
    refine ⟨by omega, by omega, ?_⟩
    rw [hlt]
  · rintro ⟨h1, h2, h3⟩
    refine ⟨n.length - 1, ?_, ?_⟩
    · rw [List.mem_range]
      omega
    · have heq : n.length - 1 + 1 = n.length := by omega
      rw [heq, h3]

theorem fold_countsF (levels : Nat) : ∀ (prs : List (List Char × SplitResult)) (st : HAgg)
    (n : Node),
    ((prs.foldl (hierStepUrl levels) st).countsF n) =
      st.countsF n + prs.countP fun p => decide (n ∈ nodesOfPair levels p) := by
  intro prs
  induction prs with
  | nil => intro st n; simp
  | cons p t ih =>
    intro st n
    rw [List.foldl_cons, ih, List.countP_cons]
    have hstep : (hierStepUrl levels st p).countsF n =
        st.countsF n + ((nodesOfPair levels p).countP fun m => decide (m = n)) := by
      unfold hierStepUrl
      split
      · exact innerFold_countsF p.1 (nodesOfPair levels p) st n
      · exact innerFold_countsF p.1 (nodesOfPair levels p) st n
    rw [hstep, countP_eq_ite_of_nodup (nodesOfPair_nodup levels p) n]
    by_cases hm : n ∈ nodesOfPair levels p
    · rw [if_pos hm, if_pos (decide_eq_true hm)]
      omega
    · rw [if_neg hm, if_neg (by simp [hm])]
      omega

theorem fold_keys (levels : Nat) : ∀ (prs : List (List Char × SplitResult)) (st : HAgg)
    (n : Node),
    (n ∈ (prs.foldl (hierStepUrl levels) st).countKeys ↔
      n ∈ st.countKeys ∨ ∃ p ∈ prs, n ∈ nodesOfPair levels p) := by
  intro prs
  induction prs with
  | nil =>
    intro st n
    constructor
    · exact Or.inl
    · rintro (h | ⟨p, hp, _⟩)
      · exact h
      · cases hp
  | cons p t ih =>
    intro st n
    rw [List.foldl_cons, ih]
    have hstep : ∀ m, m ∈ (hierStepUrl levels st p).countKeys ↔
        m ∈ st.countKeys ∨ m ∈ nodesOfPair levels p := by
      intro m
      unfold hierStepUrl
      split
      · exact innerFold_keys p.1 (nodesOfPair levels p) st m
      · exact innerFold_keys p.1 (nodesOfPair levels p) st m
    rw [hstep]
    simp only [List.mem_cons]
    constructor
    · rintro ((h1 | h1) | ⟨q, hq, hq2⟩)
      · exact Or.inl h1
      · exact Or.inr ⟨p, Or.inl rfl, h1⟩
      · exact Or.inr ⟨q, Or.inr hq, hq2⟩
    · rintro (h1 | ⟨q, (rfl | hq), hq2⟩)
      · exact Or.inl (Or.inl h1)
      · exact Or.inl (Or.inr hq2)
      · exact Or.inr ⟨q, hq, hq2⟩

theorem fold_keys_nodup (levels : Nat) : ∀ (prs : List (List Char × SplitResult)) (st : HAgg),
    st.countKeys.Nodup → (prs.foldl (hierStepUrl levels) st).countKeys.Nodup := by
  intro prs
  induction prs with
  | nil => intro st h; exact h
  | cons p t ih =>
    intro st h
    rw [List.foldl_cons]
    apply ih
    unfold hierStepUrl
    split
    · exact innerFold_keys_nodup p.1 (nodesOfPair levels p) st h
    · exact innerFold_keys_nodup p.1 (nodesOfPair levels p) st h

theorem fold_leafFirst (levels : Nat) : ∀ (prs : List (List Char × SplitResult)) (st : HAgg)
    (n : Node),
    ((prs.foldl (hierStepUrl levels) st).leafFirst n =
      match st.leafFirst n with
      | some v => some v
      | none => (prs.find? fun p => decide (leafOfPair levels p = n)).map Prod.fst) := by
  intro prs
  induction prs with
  | nil =>
    intro st n
    cases h : st.leafFirst n <;> simp [h]
  | cons p t ih =>
    intro st n
    rw [List.foldl_cons, ih]
    have hinner : (hierInner levels st p).leafFirst = st.leafFirst :=
      innerFold_leafFirst p.1 (nodesOfPair levels p) st
    by_cases hsome : ((hierInner levels st p).leafFirst (leafOfPair levels p)).isSome = true
    · have hstep : (hierStepUrl levels st p).leafFirst = st.leafFirst := by
        unfold hierStepUrl
        rw [if_pos hsome]
        exact hinner
      rw [hstep]
      cases hn : st.leafFirst n with
      | some v => rfl
      | none =>
        have hne : ¬ (leafOfPair levels p = n) := by
          intro heq
          rw [hinner, heq, hn] at hsome
          cases hsome
        rw [List.find?_cons_of_neg]
        simp only [decide_eq_true_eq]
        exact hne
    · have hstep : (hierStepUrl levels st p).leafFirst =
          fun m => if m = leafOfPair levels p then some p.1 else st.leafFirst m := by
        unfold hierStepUrl
        rw [if_neg hsome]
        show (fun m => if m = leafOfPair levels p then some p.1
          else (hierInner levels st p).leafFirst m) = _
        rw [hinner]
      rw [hstep]
      rw [hinner] at hsome
      by_cases heq : n = leafOfPair levels p
      · have hnone : st.leafFirst n = none := by
          rw [heq]
          cases h2 : st.leafFirst (leafOfPair levels p)
          · rfl
          · rw [h2] at hsome
            exact absurd rfl hsome
        simp only [if_pos heq, hnone]
        rw [List.find?_cons_of_pos]
        · rfl
        · simp [heq]
      · simp only [if_neg heq]
        cases hn : st.leafFirst n with
        | some v => rfl
        | none =>
          rw [List.find?_cons_of_neg]
          simp only [decide_eq_true_eq]
          exact fun hc => heq hc.symm

theorem fold_leafMulti (levels : Nat) : ∀ (prs : List (List Char × SplitResult)) (st : HAgg)
    (n : Node),
    ((prs.foldl (hierStepUrl levels) st).leafMulti n = true ↔
      st.leafMulti n = true ∨
      ((st.leafFirst n).isSome = true ∧
        1 ≤ prs.countP fun p => decide (leafOfPair levels p = n)) ∨
      2 ≤ prs.countP fun p => decide (leafOfPair levels p = n)) := by
  intro prs
  induction prs with
  | nil =>
    intro st n
    simp
  | cons p t ih =>
    intro st n
    rw [List.foldl_cons, ih, List.countP_cons]
    have hinnerF : (hierInner levels st p).leafFirst = st.leafFirst :=
      innerFold_leafFirst p.1 (nodesOfPair levels p) st
    have hinnerM : (hierInner levels st p).leafMulti = st.leafMulti :=
      innerFold_leafMulti p.1 (nodesOfPair levels p) st
    by_cases heq : leafOfPair levels p = n
    · rw [if_pos (decide_eq_true heq)]
      by_cases hsome : (st.leafFirst n).isSome = true
      · have hcond : ((hierInner levels st p).leafFirst (leafOfPair levels p)).isSome = true := by
          rw [hinnerF, heq]
          exact hsome
        have hstepM : (hierStepUrl levels st p).leafMulti n = true := by
          unfold hierStepUrl
          rw [if_pos hcond]
          show (if n = leafOfPair levels p then true
            else (hierInner levels st p).leafMulti n) = true
          rw [if_pos heq.symm]
        constructor
        · intro _
          exact Or.inr (Or.inl ⟨hsome, by omega⟩)
        · intro _
          exact Or.inl hstepM
      · have hcond : ¬ ((hierInner levels st p).leafFirst (leafOfPair levels p)).isSome = true := by
          rw [hinnerF, heq]
          exact hsome
        have hstepM : (hierStepUrl levels st p).leafMulti n = st.leafMulti n := by
          unfold hierStepUrl
          rw [if_neg hcond]
          show (hierInner levels st p).leafMulti n = _
          rw [hinnerM]
        have hstepF : ((hierStepUrl levels st p).leafFirst n).isSome = true := by
          unfold hierStepUrl
          rw [if_neg hcond]
          show (if n = leafOfPair levels p then some p.1
            else (hierInner levels st p).leafFirst n).isSome = true
          rw [if_pos heq.symm]
          rfl
        rw [hstepM, hstepF]
        constructor
        · rintro (h1 | ⟨_, h2⟩ | h3)
          · exact Or.inl h1
          · exact Or.inr (Or.inr (by omega))
          · exact Or.inr (Or.inr (by omega))
        · rintro (h1 | ⟨h2, _⟩ | h3)
          · exact Or.inl h1
          · exact absurd h2 hsome
          · exact Or.inr (Or.inl ⟨rfl, by omega⟩)
    · rw [if_neg (by simp only [decide_eq_true_eq]; exact heq), Nat.add_zero]
      have hstepM : (hierStepUrl levels st p).leafMulti n = st.leafMulti n := by
        unfold hierStepUrl
        split
        · show (if n = leafOfPair levels p then true
            else (hierInner levels st p).leafMulti n) = _
          rw [if_neg (fun hc => heq hc.symm), hinnerM]
        · show (hierInner levels st p).leafMulti n = _
          rw [hinnerM]
      have hstepF : (hierStepUrl levels st p).leafFirst n = st.leafFirst n := by
        unfold hierStepUrl
        split
        · show (hierInner levels st p).leafFirst n = _
          rw [hinnerF]
        · show (if n = leafOfPair levels p then some p.1
            else (hierInner levels st p).leafFirst n) = _
          rw [if_neg (fun hc => heq hc.symm), hinnerF]
      rw [hstepM, hstepF]

/-! ### Claims C1 and C7 (roll-up law, truncation and leaf marking) -/

theorem sum_ite_eq_one {cs : List Node} (hnd : cs.Nodup) {P : Node → Prop}
    [DecidablePred P] {c0 : Node} (hc0 : c0 ∈ cs) (hP : P c0)
    (huni : ∀ c ∈ cs, P c → c = c0) :
    (cs.map fun c => if P c then 1 else 0).sum = 1 := by
  induction cs with
  | nil => cases hc0
  | cons a t ih =>
    rcases List.nodup_cons.mp hnd with ⟨hat, hnt⟩
    rw [List.map_cons, List.sum_cons]
    rcases List.mem_cons.mp hc0 with heq | hc0t
    · rw [if_pos (heq ▸ hP)]
      have ht0 : ((t.map fun c => if P c then 1 else 0)).sum = 0 := by
        apply List.sum_eq_zero
        intro x hx
        rcases List.mem_map.mp hx with ⟨c, hct, rfl⟩
        rw [if_neg]
        intro hPc
        have hceq : c = c0 := huni c (List.mem_cons_of_mem a hct) hPc
        apply hat
        rw [← heq, ← hceq]
        exact hct
      rw [ht0]
    · have ha : ¬ P a := by
        intro hPa
        have haeq := huni a (List.mem_cons_self a t) hPa
        subst haeq
        exact hat hc0t
      rw [if_neg ha, ih hnt hc0t fun c hct hPc =>
        huni c (List.mem_cons_of_mem a hct) hPc]

theorem sum_countP_cons (cs : List Node) (R : Node → (List Char × SplitResult) → Bool)
    (p : List Char × SplitResult) (t : List (List Char × SplitResult)) :
    (cs.map fun c => List.countP (R c) (p :: t)).sum =
      (cs.map fun c => List.countP (R c) t).sum +
        (cs.map fun c => if R c p then 1 else 0).sum := by
  induction cs with
  | nil => rfl
  | cons c cs2 ih =>
    rw [List.map_cons, List.map_cons, List.map_cons, List.sum_cons, List.sum_cons,
      List.sum_cons, List.countP_cons, ih]
    omega

theorem countP_split (cs : List Node) (Q E : (List Char × SplitResult) → Bool)
    (R : Node → (List Char × SplitResult) → Bool) :
    ∀ prs : List (List Char × SplitResult),
    (∀ p ∈ prs, (if Q p then 1 else 0) =
      (if E p then 1 else 0) + (cs.map fun c => if R c p then 1 else 0).sum) →
    prs.countP Q = prs.countP E + (cs.map fun c => prs.countP (R c)).sum := by
  intro prs
  induction prs with
  | nil =>
    intro _
    simp only [List.countP_nil, Nat.zero_add]
    symm
    apply List.sum_eq_zero
    intro x hx
    rcases List.mem_map.mp hx with ⟨c, _, rfl⟩
    rfl
  | cons p t ih =>
    intro hper
    have hp := hper p (List.mem_cons_self p t)
    have ht := ih fun q hq => hper q (List.mem_cons_of_mem p hq)
    rw [List.countP_cons, List.countP_cons, ht, sum_countP_cons]
    omega

theorem buildHierPure_countsF (levels : Nat) (prs : List (List Char × SplitResult))
    (n : Node) :
    (buildHierPure levels prs).countsF n =
      prs.countP fun p => decide (n ∈ nodesOfPair levels p) := by
  unfold buildHierPure
  rw [fold_countsF]
  simp [hierInit]

theorem buildHierPure_keys (levels : Nat) (prs : List (List Char × SplitResult)) (n : Node) :
    n ∈ (buildHierPure levels prs).countKeys ↔ ∃ p ∈ prs, n ∈ nodesOfPair levels p := by
  unfold buildHierPure
  rw [fold_keys]
  constructor
  · rintro (h | h)
    · cases h
    · exact h
  · exact Or.inr

theorem buildHierPure_keys_nodup (levels : Nat) (prs : List (List Char × SplitResult)) :
    (buildHierPure levels prs).countKeys.Nodup := by
  unfold buildHierPure
  exact fold_keys_nodup levels prs hierInit List.nodup_nil

theorem leafOfPair_length (levels : Nat) (p : List Char × SplitResult) :
    (leafOfPair levels p).length = min levels (chainOf p.2).length := by
  unfold leafOfPair
  rw [List.length_take]
  omega

theorem rollup_per_pair (levels : Nat) (prs : List (List Char × SplitResult)) (n : Node)
    (hn1 : 1 ≤ n.length) :
    ∀ p ∈ prs,
      (if decide (n ∈ nodesOfPair levels p) = true then 1 else 0) =
        (if decide (leafOfPair levels p = n) = true then 1 else 0) +
        ((childrenOf (buildHierPure levels prs) n).map
          fun c => if decide (c ∈ nodesOfPair levels p) = true then 1 else 0).sum := by
  intro p hp
  have hchild_mem : ∀ c ∈ childrenOf (buildHierPure levels prs) n,
      c.length = n.length + 1 ∧ c.take n.length = n := by
    intro c hc
    unfold childrenOf at hc
    rcases List.mem_filter.mp hc with ⟨_, hcond⟩
    simpa using hcond
  by_cases hmem : n ∈ nodesOfPair levels p
  · rcases (nodesOfPair_mem_iff levels p n).mp hmem with ⟨_, hlen, htake⟩
    by_cases hleaf : leafOfPair levels p = n
    · rw [if_pos (decide_eq_true hmem), if_pos (decide_eq_true hleaf)]
      have hzero : ((childrenOf (buildHierPure levels prs) n).map
          fun c => if decide (c ∈ nodesOfPair levels p) = true then 1 else 0).sum = 0 := by
        apply List.sum_eq_zero
        intro x hx
        rcases List.mem_map.mp hx with ⟨c, hc, rfl⟩
        rw [if_neg]
        simp only [decide_eq_true_eq]
        intro hcmem
        rcases (nodesOfPair_mem_iff levels p c).mp hcmem with ⟨_, hclen, _⟩
        have h1 := (hchild_mem c hc).1
        have h2 : n.length = min levels (chainOf p.2).length := by
          rw [← hleaf, leafOfPair_length]
        omega
      rw [hzero]
    · rw [if_pos (decide_eq_true hmem),
        if_neg (by simp only [decide_eq_true_eq]; exact hleaf)]
      have hlt : n.length < min levels (chainOf p.2).length := by
        rcases Nat.lt_or_ge n.length (min levels (chainOf p.2).length) with h | h
        · exact h
        · exfalso
          apply hleaf
          have heq : n.length = min levels (chainOf p.2).length := by omega
          unfold leafOfPair
          rw [← heq]
          exact htake
      have hk : min levels (chainOf p.2).length ≤ (chainOf p.2).length := min_le_right _ _
      have hc0mem : (chainOf p.2).take (n.length + 1) ∈ nodesOfPair levels p := by
        apply (nodesOfPair_mem_iff levels p _).mpr
        have hlc0 : ((chainOf p.2).take (n.length + 1)).length = n.length + 1 := by
          rw [List.length_take]
          omega
        exact ⟨by omega, by omega, by rw [hlc0]⟩
      have hc0take : ((chainOf p.2).take (n.length + 1)).take n.length = n := by
        rw [List.take_take, min_eq_left (by omega), htake]
      have hc0keys : (chainOf p.2).take (n.length + 1) ∈
          (buildHierPure levels prs).countKeys :=
        (buildHierPure_keys levels prs _).mpr ⟨p, hp, hc0mem⟩
      have hc0child : (chainOf p.2).take (n.length + 1) ∈
          childrenOf (buildHierPure levels prs) n := by
        unfold childrenOf
        apply List.mem_filter.mpr
        refine ⟨hc0keys, ?_⟩
        have hlc0 : ((chainOf p.2).take (n.length + 1)).length = n.length + 1 := by
          rw [List.length_take]
          omega
        simp only [decide_eq_true_eq]
        exact ⟨hlc0, hc0take⟩
      have hone : ((childrenOf (buildHierPure levels prs) n).map
          fun c => if decide (c ∈ nodesOfPair levels p) = true then 1 else 0).sum = 1 := by
        apply sum_ite_eq_one (List.Nodup.filter _ (buildHierPure_keys_nodup levels prs))
          hc0child (decide_eq_true hc0mem)
        intro c hc hcP
        simp only [decide_eq_true_eq] at hcP
        rcases (nodesOfPair_mem_iff levels p c).mp hcP with ⟨_, _, hctake⟩
        have hclen := (hchild_mem c hc).1
        rw [← hctake, hclen]
      rw [hone]
  · rw [if_neg (by simp only [decide_eq_true_eq]; exact hmem)]
    have hleaf : ¬ (leafOfPair levels p = n) := by
      intro hleaf
      apply hmem
      apply (nodesOfPair_mem_iff levels p n).mpr
      have hlenn : n.length = min levels (chainOf p.2).length := by
        rw [← hleaf, leafOfPair_length]
      refine ⟨hn1, by omega, ?_⟩
      rw [hlenn, ← hleaf]
      rfl
    rw [if_neg (by simp only [decide_eq_true_eq]; exact hleaf)]
    have hzero : ((childrenOf (buildHierPure levels prs) n).map
        fun c => if decide (c ∈ nodesOfPair levels p) = true then 1 else 0).sum = 0 := by
      apply List.sum_eq_zero
      intro x hx
      rcases List.mem_map.mp hx with ⟨c, hc, rfl⟩
      rw [if_neg]
      simp only [decide_eq_true_eq]
      intro hcmem
      apply hmem
      rcases (nodesOfPair_mem_iff levels p c).mp hcmem with ⟨_, hclen2, hctake⟩
      rcases hchild_mem c hc with ⟨hclen, hcn⟩
      apply (nodesOfPair_mem_iff levels p n).mpr
      refine ⟨hn1, by omega, ?_⟩
      calc (chainOf p.2).take n.length
          = ((chainOf p.2).take c.length).take n.length := by
            rw [List.take_take, min_eq_left (by omega)]
        _ = c.take n.length := by rw [hctake]
        _ = n := hcn
    rw [hzero]

theorem rollup_main (levels : Nat) (prs : List (List Char × SplitResult)) (n : Node)
    (hn1 : 1 ≤ n.length) :
    (buildHierPure levels prs).countsF n =
      exactCount levels prs n + childSum (buildHierPure levels prs) n := by
  rw [buildHierPure_countsF]
  unfold exactCount childSum
  have hmapeq : (childrenOf (buildHierPure levels prs) n).map
      (buildHierPure levels prs).countsF =
      (childrenOf (buildHierPure levels prs) n).map
        fun c => prs.countP fun p => decide (c ∈ nodesOfPair levels p) := by
    apply List.map_congr_left
    intro c _
    exact buildHierPure_countsF levels prs c
  rw [hmapeq]
  exact countP_split (childrenOf (buildHierPure levels prs) n)
    (fun p => decide (n ∈ nodesOfPair levels p))
    (fun p => decide (leafOfPair levels p = n))
    (fun c p => decide (c ∈ nodesOfPair levels p)) prs
    (rollup_per_pair levels prs n hn1)

theorem mono_main (levels : Nat) (prs : List (List Char × SplitResult)) (n m : Node)
    (hn1 : 1 ≤ n.length) (htk : m.take n.length = n) (hlt : n.length < m.length) :
    (buildHierPure levels prs).countsF m ≤ (buildHierPure levels prs).countsF n := by
  rw [buildHierPure_countsF, buildHierPure_countsF]
  apply List.countP_mono_left
  intro p hp hQ
  simp only [decide_eq_true_eq] at hQ ⊢
  rcases (nodesOfPair_mem_iff levels p m).mp hQ with ⟨_, h2, h3⟩
  apply (nodesOfPair_mem_iff levels p n).mpr
  refine ⟨hn1, by omega, ?_⟩
  calc (chainOf p.2).take n.length
      = ((chainOf p.2).take m.length).take n.length := by
        rw [List.take_take, min_eq_left (le_of_lt hlt)]
    _ = m.take n.length := by rw [h3]
    _ = n := htk

/-- C1 (amended): in the aggregated node data, for every emitted node N the
count of N equals the number of URLs whose truncated chain is exactly N plus
the sum of the counts of N's direct children (so the roll-up equality of the
claim holds only when no URL terminates at N, and count(N) ≥ sum of children
in general); the prefix-monotonicity part of the claim holds as stated:
an ancestor's count is at least a descendant's count. -/
theorem claim_C1 (urls : List (List Char)) (levels : Nat)
    (prs : List (List Char × SplitResult)) (st : HAgg) (n m : Node)
    (hpr : parseUrls urls = .ok prs) (hst : buildHier urls levels = .ok st) :
    (n ∈ st.countKeys → st.countsF n = exactCount (max 2 levels) prs n + childSum st n) ∧
    (n ∈ st.countKeys → m.take n.length = n → n.length < m.length →
      st.countsF m ≤ st.countsF n) := by
  have hstp : st = buildHierPure (max 2 levels) prs := by
    unfold buildHier at hst
    rw [hpr] at hst
    injection hst with h
    exact h.symm
  subst hstp
  constructor
  · intro hn
    have hn1 : 1 ≤ n.length := by
      rcases (buildHierPure_keys _ _ _).mp hn with ⟨p, _, hmem⟩
      exact ((nodesOfPair_mem_iff _ _ _).mp hmem).1
    exact rollup_main _ _ _ hn1
  · intro hn htk hlt
    have hn1 : 1 ≤ n.length := by
      rcases (buildHierPure_keys _ _ _).mp hn with ⟨p, _, hmem⟩
      exact ((nodesOfPair_mem_iff _ _ _).mp hmem).1
    exact mono_main _ _ _ _ hn1 htk hlt

/-- Counterexample to C1 as stated: for urls = [https://x.com/, https://x.com/a]
the node ("x.com",) has one child ("x.com","a"), count 2, but the children sum
is only 1 — the first URL terminates at the parent node, so the strict
roll-up equality fails. -/
theorem claim_C1_cex :
    (buildHier ["https://x.com/".data, "https://x.com/a".data] 2).map
      (fun st => (st.countsF ["x.com".data], childSum st ["x.com".data],
        (childrenOf st ["x.com".data]).length)) = .ok (2, 1, 1) := by
  decide

/-- Witness for C1 at a concrete input: the amended roll-up equation evaluated
for the node ("x.com",) of the counterexample input. -/
theorem claim_C1_witness :
    (buildHierPure (max 2 2)
        [("https://x.com/".data, ⟨"https".data, "x.com".data, "/".data, [], []⟩),
         ("https://x.com/a".data, ⟨"https".data, "x.com".data, "/a".data, [], []⟩)]).countsF
        ["x.com".data] =
      exactCount (max 2 2)
        [("https://x.com/".data, ⟨"https".data, "x.com".data, "/".data, [], []⟩),
         ("https://x.com/a".data, ⟨"https".data, "x.com".data, "/a".data, [], []⟩)]
        ["x.com".data] +
      childSum (buildHierPure (max 2 2)
        [("https://x.com/".data, ⟨"https".data, "x.com".data, "/".data, [], []⟩),
         ("https://x.com/a".data, ⟨"https".data, "x.com".data, "/a".data, [], []⟩)])
        ["x.com".data] := by
  have hpr : parseUrls ["https://x.com/".data, "https://x.com/a".data] =
      .ok [("https://x.com/".data, ⟨"https".data, "x.com".data, "/".data, [], []⟩),
           ("https://x.com/a".data, ⟨"https".data, "x.com".data, "/a".data, [], []⟩)] := by
    decide
  have hst : buildHier ["https://x.com/".data, "https://x.com/a".data] 2 =
      .ok (buildHierPure (max 2 2)
        [("https://x.com/".data, ⟨"https".data, "x.com".data, "/".data, [], []⟩),
         ("https://x.com/a".data, ⟨"https".data, "x.com".data, "/a".data, [], []⟩)]) := by
    unfold buildHier
    rw [hpr]
    rfl
  exact (claim_C1 ["https://x.com/".data, "https://x.com/a".data] 2 _ _ ["x.com".data]
    ["x.com".data] hpr hst).1 (by decide)

/-- C7 (amended): maxLevels is clamped to a minimum of 2 (levels ≤ 2 behaves
exactly like levels = 2); each URL's leaf node is its chain truncated to
k = min(clamped levels, chain length); a leaf node is marked "multiple" if
and only if at least two list entries (whether or not they are different
URLs) map to it — the source checks mere presence in leaf_first_url, not
difference; leaf_first_url holds the first matching URL, and a leaf that is
not multiple gets that URL verbatim as hover text. -/
theorem claim_C7 (urls : List (List Char)) (levels : Nat)
    (prs : List (List Char × SplitResult)) (n : Node) :
    (levels ≤ 2 → buildHier urls levels = buildHier urls 2) ∧
    ((buildHierPure levels prs).leafMulti n = true ↔
      2 ≤ prs.countP fun p => decide (leafOfPair levels p = n)) ∧
    ((buildHierPure levels prs).leafFirst n =
      (prs.find? fun p => decide (leafOfPair levels p = n)).map Prod.fst) ∧
    (∀ u, (buildHierPure levels prs).leafFirst n = some u →
      (buildHierPure levels prs).leafMulti n = false →
      hoverOf (buildHierPure levels prs) n = u) := by
  refine ⟨?_, ?_, ?_, ?_⟩
  · intro hle
    unfold buildHier
    rw [Nat.max_eq_left hle, Nat.max_self]
  · show ((prs.foldl (hierStepUrl levels) hierInit).leafMulti n = true ↔ _)
    rw [fold_leafMulti]
    constructor
    · rintro (h1 | ⟨h2, _⟩ | h3)
      · exact Bool.noConfusion (h1 : (false : Bool) = true)
      · exact Bool.noConfusion (h2 : (false : Bool) = true)
      · exact h3
    · exact fun h => Or.inr (Or.inr h)
  · show ((prs.foldl (hierStepUrl levels) hierInit).leafFirst n = _)
    rw [fold_leafFirst]
    rfl
  · intro u hu hm
    unfold hoverOf
    rw [hu, hm]
    rfl

/-- Counterexample to C7 as stated: feeding the same URL twice marks its leaf
node as "multiple" although no *different* URL was ever recorded there — the
code tests presence in leaf_first_url, not URL difference. -/
theorem claim_C7_cex :
    (buildHier ["https://x.com/a".data, "https://x.com/a".data] 3).map
      (fun st => st.leafMulti ["x.com".data, "a".data]) = .ok true ∧
    (∀ x ∈ ["https://x.com/a".data, "https://x.com/a".data], x = "https://x.com/a".data) :=
  ⟨by decide, by decide⟩

/-- Witness for C7 at a concrete input: a leaf node reached by two entries is
marked multiple. -/
theorem claim_C7_witness :
    (buildHierPure 3
        [("https://x.com/a".data, ⟨"https".data, "x.com".data, "/a".data, [], []⟩),
         ("https://x.com/a".data, ⟨"https".data, "x.com".data, "/a".data, [], []⟩)]).leafMulti
      ["x.com".data, "a".data] = true :=
  (claim_C7 [] 3
    [("https://x.com/a".data, ⟨"https".data, "x.com".data, "/a".data, [], []⟩),
     ("https://x.com/a".data, ⟨"https".data, "x.com".data, "/a".data, [], []⟩)]
    ["x.com".data, "a".data]).2.1.mpr (by decide)

/-! ### Claim C2 (node identifier injectivity) -/

theorem takeWhile_append_stop {x : Char} {a b : List Char} (ha : ∀ c ∈ a, c ≠ x) :
    (a ++ x :: b).takeWhile (· ≠ x) = a := by
  induction a with
  | nil => simp [List.takeWhile_cons]
  | cons c a2 ih =>
    rw [List.cons_append, List.takeWhile_cons,
      if_pos (by simp [ha c (List.mem_cons_self c a2)]),
      ih fun d hd => ha d (List.mem_cons_of_mem c hd)]

theorem dropWhile_append_stop {x : Char} {a b : List Char} (ha : ∀ c ∈ a, c ≠ x) :
    (a ++ x :: b).dropWhile (· ≠ x) = x :: b := by
  induction a with
  | nil => simp [List.dropWhile_cons]
  | cons c a2 ih =>
    rw [List.cons_append, List.dropWhile_cons,
      if_pos (by simp [ha c (List.mem_cons_self c a2)]),
      ih fun d hd => ha d (List.mem_cons_of_mem c hd)]

theorem splitFirst_append {x : Char} {a b : List Char} (ha : ∀ c ∈ a, c ≠ x) :
    splitFirst x (a ++ x :: b) = some (a, b) := by
  unfold splitFirst
  rw [dropWhile_append_stop ha, takeWhile_append_stop ha]

theorem takeWhile_no_stop {x : Char} {a : List Char} (ha : ∀ c ∈ a, c ≠ x) :
    a.takeWhile (· ≠ x) = a := by
  induction a with
  | nil => rfl
  | cons c a2 ih =>
    rw [List.takeWhile_cons, if_pos (by simp [ha c (List.mem_cons_self c a2)]),
      ih fun d hd => ha d (List.mem_cons_of_mem c hd)]

theorem dropWhile_no_stop {x : Char} {a : List Char} (ha : ∀ c ∈ a, c ≠ x) :
    a.dropWhile (· ≠ x) = [] := by
  induction a with
  | nil => rfl
  | cons c a2 ih =>
    rw [List.dropWhile_cons, if_pos (by simp [ha c (List.mem_cons_self c a2)]),
      ih fun d hd => ha d (List.mem_cons_of_mem c hd)]

theorem splitFirst_none {x : Char} {a : List Char} (ha : ∀ c ∈ a, c ≠ x) :
    splitFirst x a = none := by
  unfold splitFirst
  rw [dropWhile_no_stop ha]

theorem joinPipe_cons (s : List Char) (r : List (List Char)) (hr : r ≠ []) :
    joinPipe (s :: r) = s ++ '|' :: joinPipe r := by
  cases r with
  | nil => exact absurd rfl hr
  | cons t r2 => rfl

theorem pipe_split_unique {s t x y : List Char}
    (hs : ∀ c ∈ s, c ≠ '|') (ht : ∀ c ∈ t, c ≠ '|')
    (h : s ++ '|' :: x = t ++ '|' :: y) : s = t ∧ x = y := by
  have h1 : (s ++ '|' :: x).takeWhile (· ≠ '|') = s := takeWhile_append_stop hs
  have h2 : (t ++ '|' :: y).takeWhile (· ≠ '|') = t := takeWhile_append_stop ht
  have hst : s = t := by
    rw [← h1, ← h2, h]
  subst hst
  refine ⟨rfl, ?_⟩
  have := List.append_cancel_left h
  injection this

theorem joinPipe_inj : ∀ (a b : List (List Char)), a ≠ [] → b ≠ [] →
    (∀ s ∈ a, ∀ c ∈ s, c ≠ '|') → (∀ s ∈ b, ∀ c ∈ s, c ≠ '|') →
    joinPipe a = joinPipe b → a = b := by
  intro a
  induction a with
  | nil => intro b ha; exact absurd rfl ha
  | cons s as ih =>
    intro b _ hb hfa hfb h
    cases b with
    | nil => exact absurd rfl hb
    | cons t bs =>
      have hs : ∀ c ∈ s, c ≠ '|' := hfa s (List.mem_cons_self s as)
      have ht : ∀ c ∈ t, c ≠ '|' := hfb t (List.mem_cons_self t bs)
      cases has : as with
      | nil =>
        cases hbs : bs with
        | nil =>
          subst has
          subst hbs
          show s :: ([] : List (List Char)) = t :: []
          have : s = t := h
          rw [this]
        | cons b2 bs2 =>
          subst has
          subst hbs
          rw [joinPipe_cons t (b2 :: bs2) (by simp)] at h
          exfalso
          have hmem : '|' ∈ joinPipe [s] := by
            rw [h]
            exact List.mem_append_right t (List.mem_cons_self '|' _)
          exact hs '|' hmem rfl
      | cons a2 as2 =>
        cases hbs : bs with
        | nil =>
          subst has
          subst hbs
          rw [joinPipe_cons s (a2 :: as2) (by simp)] at h
          exfalso
          have hmem : '|' ∈ joinPipe [t] := by
            rw [← h]
            exact List.mem_append_right s (List.mem_cons_self '|' _)
          exact ht '|' hmem rfl
        | cons b2 bs2 =>
          subst has
          subst hbs
          rw [joinPipe_cons s (a2 :: as2) (by simp),
            joinPipe_cons t (b2 :: bs2) (by simp)] at h
          rcases pipe_split_unique hs ht h with ⟨hst, hxy⟩
          have htail : a2 :: as2 = b2 :: bs2 :=
            ih (b2 :: bs2) (by simp) (by simp)
              (fun q hq => hfa q (List.mem_cons_of_mem s hq))
              (fun q hq => hfb q (List.mem_cons_of_mem t hq)) hxy
          rw [hst, htail]

/-- C2 (amended): the node identifier map is injective on node sequences
(nonempty, as every emitted node is) whose segments do not contain the raw
separator character `|`; the separator is *not* escaped anywhere, so path
segments containing `|` can collide with genuine separators (see the
counterexample). -/
theorem claim_C2 (a b : Node) (ha : a ≠ []) (hb : b ≠ [])
    (hfa : ∀ s ∈ a, ∀ c ∈ s, c ≠ '|') (hfb : ∀ s ∈ b, ∀ c ∈ s, c ≠ '|')
    (h : nodeId a = nodeId b) : a = b := by
  unfold nodeId at h
  injection h with _ h2
  exact joinPipe_inj a b ha hb hfa hfb h2

/-- Counterexample to C2 as stated: the two distinct nodes ("x.com","a|b")
and ("x.com","a","b") — both of which the aggregator emits for the URL list
[https://x.com/a|b, https://x.com/a/b] — receive the same identifier string
"|x.com|a|b": nothing escapes `|` in path segments. -/
theorem claim_C2_cex :
    (["x.com".data, "a|b".data] : Node) ≠ ["x.com".data, "a".data, "b".data] ∧
    nodeId ["x.com".data, "a|b".data] = nodeId ["x.com".data, "a".data, "b".data] ∧
    (buildHier ["https://x.com/a|b".data, "https://x.com/a/b".data] 3).map
      (fun st => decide (["x.com".data, "a|b".data] ∈ st.countKeys ∧
        ["x.com".data, "a".data, "b".data] ∈ st.countKeys)) = .ok true :=
  ⟨by decide, by decide, by decide⟩

/-- Witness for C2 at a concrete input: two pipe-free nodes with equal
identifiers are equal. -/
theorem claim_C2_witness : (["x.com".data, "a".data] : Node) = ["x.com".data, "a".data] :=
  claim_C2 ["x.com".data, "a".data] ["x.com".data, "a".data] (by decide) (by decide)
    (by decide) (by decide) rfl

/-! ### Claim C6: idempotence of the filters.  First, character-level facts
about `pyLower`, `preClean` and the `urlsplit` stages. -/

theorem lowerCh_toNat_of_upper {c : Char} (h : 'A' ≤ c ∧ c ≤ 'Z') :
    (lowerCh c).toNat = c.toNat + 32 := by
  unfold lowerCh
  rw [if_pos h]
  have h1 : 65 ≤ c.toNat := h.1
  have h2 : c.toNat ≤ 90 := h.2
  have hv : (c.toNat + 32).isValidChar := by
    left
    omega
  unfold Char.ofNat
  rw [dif_pos hv]
  rfl

theorem lowerCh_special {c x : Char}
    (hx : x.toNat < 65 ∨ (90 < x.toNat ∧ x.toNat < 97) ∨ 122 < x.toNat)
    (h : lowerCh c = x) : c = x := by
  by_cases hc : 'A' ≤ c ∧ c ≤ 'Z'
  · exfalso
    have ht := lowerCh_toNat_of_upper hc
    rw [h] at ht
    have h1 : 65 ≤ c.toNat := hc.1
    have h2 : c.toNat ≤ 90 := hc.2
    rcases hx with h3 | ⟨h3, h4⟩ | h3 <;> omega
  · rw [← h]
    unfold lowerCh
    rw [if_neg hc]

theorem lowerCh_fix {c : Char} (hc : ¬ ('A' ≤ c ∧ c ≤ 'Z')) : lowerCh c = c := by
  unfold lowerCh
  rw [if_neg hc]

theorem lowerCh_not_upper (c : Char) : ¬ ('A' ≤ lowerCh c ∧ lowerCh c ≤ 'Z') := by
  by_cases hc : 'A' ≤ c ∧ c ≤ 'Z'
  · have ht := lowerCh_toNat_of_upper hc
    have h2 : c.toNat ≤ 90 := hc.2
    have h1 : 65 ≤ c.toNat := hc.1
    rintro ⟨ha, hb⟩
    have ha2 : 65 ≤ (lowerCh c).toNat := ha
    have hb2 : (lowerCh c).toNat ≤ 90 := hb
    omega
  · rw [lowerCh_fix hc]
    exact hc

theorem pyLower_idem (l : List Char) : pyLower (pyLower l) = pyLower l := by
  unfold pyLower
  rw [List.map_map]
  apply List.map_congr_left
  intro c _
  exact lowerCh_fix (lowerCh_not_upper c)

theorem mem_pyLower_special {l : List Char} {x : Char}
    (hx : x.toNat < 65 ∨ (90 < x.toNat ∧ x.toNat < 97) ∨ 122 < x.toNat) :
    x ∈ pyLower l ↔ x ∈ l := by
  unfold pyLower
  rw [List.mem_map]
  constructor
  · rintro ⟨c, hc, hcx⟩
    rw [← lowerCh_special hx hcx]
    exact hc
  · intro hxl
    refine ⟨x, hxl, ?_⟩
    apply lowerCh_fix
    rintro ⟨h1, h2⟩
    have h1b : 65 ≤ x.toNat := h1
    have h2b : x.toNat ≤ 90 := h2
    rcases hx with h3 | ⟨h3, h4⟩ | h3 <;> omega

theorem pyLower_special_free {l : List Char} {x : Char}
    (hx : x.toNat < 65 ∨ (90 < x.toNat ∧ x.toNat < 97) ∨ 122 < x.toNat)
    (h : x ∉ l) : x ∉ pyLower l := by
  rw [mem_pyLower_special hx]
  exact h

theorem preClean_eq_self {l : List Char}
    (hnb : ∀ c ∈ l, ¬(c = '\t' ∨ c = '\r' ∨ c = '\n'))
    (hh : ∃ c t, l = c :: t ∧ 32 < c.toNat) : preClean l = l := by
  unfold preClean
  rcases hh with ⟨c, t, rfl, hc⟩
  rw [List.dropWhile_cons, if_neg (by simp; omega)]
  rw [List.filter_eq_self.mpr]
  intro a ha
  simp only [decide_eq_true_eq]
  exact hnb a ha

theorem takeWhile_append_all {p : Char → Bool} {a b : List Char}
    (h : ∀ c ∈ a, p c = true) : (a ++ b).takeWhile p = a ++ b.takeWhile p := by
  induction a with
  | nil => rfl
  | cons c a2 ih =>
    rw [List.cons_append, List.takeWhile_cons, if_pos (h c (List.mem_cons_self c a2)),
      ih fun d hd => h d (List.mem_cons_of_mem c hd), List.cons_append]

theorem dropWhile_append_all {p : Char → Bool} {a b : List Char}
    (h : ∀ c ∈ a, p c = true) : (a ++ b).dropWhile p = b.dropWhile p := by
  induction a with
  | nil => rfl
  | cons c a2 ih =>
    rw [List.cons_append, List.dropWhile_cons, if_pos (h c (List.mem_cons_self c a2)),
      ih fun d hd => h d (List.mem_cons_of_mem c hd)]

theorem splitScheme_http {sch : List Char} (rest : List Char)
    (hs : sch = "http".data ∨ sch = "https".data) :
    splitScheme (sch ++ ':' :: rest) = (sch, rest) := by
  rcases hs with rfl | rfl
  · unfold splitScheme
    rw [splitFirst_append (by decide)]
    rfl
  · unfold splitScheme
    rw [splitFirst_append (by decide)]
    rfl

theorem splitNetloc_append {host tail : List Char}
    (hh : ∀ c ∈ host, stopCh c = false)
    (ht : tail = [] ∨ ∃ c t2, tail = c :: t2 ∧ stopCh c = true) :
    splitNetloc ('/' :: '/' :: (host ++ tail)) = (host, tail) := by
  unfold splitNetloc
  rw [if_pos (show List.take 2 ('/' :: '/' :: (host ++ tail)) = ['/', '/'] from rfl)]
  have hall : ∀ c ∈ host, (!stopCh c) = true := by
    intro c hc
    rw [hh c hc]
    rfl
  show (List.takeWhile _ (('/' :: '/' :: (host ++ tail)).drop 2),
      List.dropWhile _ (('/' :: '/' :: (host ++ tail)).drop 2)) = _
  have hdrop : ('/' :: '/' :: (host ++ tail)).drop 2 = host ++ tail := rfl
  rw [hdrop, takeWhile_append_all hall, dropWhile_append_all hall]
  rcases ht with rfl | ⟨c, t2, rfl, hc⟩
  · simp
  · rw [List.takeWhile_cons, if_neg (by rw [hc]; intro hcon; cases hcon),
      List.dropWhile_cons, if_neg (by rw [hc]; intro hcon; cases hcon),
      List.append_nil]

theorem splitFrag_append {a frag : List Char} (ha : ∀ c ∈ a, c ≠ '#') :
    splitFrag (a ++ '#' :: frag) = (a, frag) := by
  unfold splitFrag
  rw [splitFirst_append ha]

theorem splitFrag_no_stop {a : List Char} (ha : ∀ c ∈ a, c ≠ '#') :
    splitFrag a = (a, []) := by
  unfold splitFrag
  rw [splitFirst_none ha]

theorem splitQuery_append {a q : List Char} (ha : ∀ c ∈ a, c ≠ '?') :
    splitQuery (a ++ '?' :: q) = (a, q) := by
  unfold splitQuery
  rw [splitFirst_append ha]

theorem splitQuery_no_stop {a : List Char} (ha : ∀ c ∈ a, c ≠ '?') :
    splitQuery a = (a, []) := by
  unfold splitQuery
  rw [splitFirst_none ha]

theorem urlunsplit_http (sch host path query frag : List Char)
    (hs : sch = "http".data ∨ sch = "https".data)
    (hpne : path ≠ []) (hnds : noDupSlash path) :
    urlunsplitList ⟨sch, host, path, query, frag⟩ =
      sch ++ ':' :: '/' :: '/' ::
        (host ++ ((if path.take 1 = ['/'] then path else '/' :: path) ++
          ((if query = [] then [] else '?' :: query) ++
           (if frag = [] then [] else '#' :: frag)))) := by
  have hschne : sch ≠ [] := by rcases hs with rfl | rfl <;> simp
  have hmem : sch ∈ usesNetloc := by rcases hs with rfl | rfl <;> decide
  have htk2 : path.take 2 ≠ ['/', '/'] := by
    cases path with
    | nil => simp
    | cons a t =>
      cases t with
      | nil => simp
      | cons b t2 =>
        rcases List.chain'_cons.mp hnds with ⟨hab, _⟩
        intro hc
        injection hc with hc1 hc2
        injection hc2 with hc2 _
        exact hab ⟨hc1, hc2⟩
  unfold urlunsplitList
  dsimp only
  rw [if_pos (Or.inr ⟨hschne, hmem, htk2⟩), if_pos hschne]
  by_cases h1 : path.take 1 = ['/'] <;> by_cases hquery : query = [] <;>
    by_cases hfrag : frag = [] <;>
    simp [h1, hquery, hfrag, hpne, List.append_assoc]

theorem urlsplit_roundtrip (sch host path query frag : List Char)
    (hs : sch = "http".data ∨ sch = "https".data)
    (hhost : ∀ c ∈ host, stopCh c = false ∧ ¬(c = '\t' ∨ c = '\r' ∨ c = '\n'))
    (hbr : ¬ bracketBad host)
    (hpne : path ≠ []) (hnds : noDupSlash path)
    (hpath : ∀ c ∈ path, c ≠ '?' ∧ c ≠ '#' ∧ ¬(c = '\t' ∨ c = '\r' ∨ c = '\n'))
    (hq : ∀ c ∈ query, c ≠ '#' ∧ ¬(c = '\t' ∨ c = '\r' ∨ c = '\n'))
    (hf : ∀ c ∈ frag, ¬(c = '\t' ∨ c = '\r' ∨ c = '\n')) :
    urlsplitList (urlunsplitList ⟨sch, host, path, query, frag⟩) =
      .ok ⟨sch, host, if path.take 1 = ['/'] then path else '/' :: path, query, frag⟩ := by
  have hschchars : ∀ c ∈ sch, ¬(c = '\t' ∨ c = '\r' ∨ c = '\n') := by
    rcases hs with rfl | rfl <;> decide
  have hEz : ∃ z, (if path.take 1 = ['/'] then path else '/' :: path) = '/' :: z := by
    by_cases h1 : path.take 1 = ['/']
    · rw [if_pos h1]
      cases path with
      | nil => exact absurd rfl hpne
      | cons a t =>
        have ha : a = '/' := by
          have ht1 : List.take 1 (a :: t) = [a] := rfl
          rw [ht1] at h1
          injection h1
        exact ⟨t, by rw [ha]⟩
    · exact ⟨path, by rw [if_neg h1]⟩
  have hEmem : ∀ c ∈ (if path.take 1 = ['/'] then path else '/' :: path),
      c ∈ path ∨ c = '/' := by
    intro c hc
    by_cases h1 : path.take 1 = ['/']
    · rw [if_pos h1] at hc
      exact Or.inl hc
    · rw [if_neg h1] at hc
      rcases List.mem_cons.mp hc with rfl | hc2
      · exact Or.inr rfl
      · exact Or.inl hc2
  have hE : ∀ c ∈ (if path.take 1 = ['/'] then path else '/' :: path),
      c ≠ '?' ∧ c ≠ '#' ∧ ¬(c = '\t' ∨ c = '\r' ∨ c = '\n') := by
    intro c hc
    rcases hEmem c hc with h | rfl
    · exact hpath c h
    · exact ⟨by decide, by decide, by decide⟩
  have hq' : ∀ c ∈ (if query = [] then [] else '?' :: query),
      c ≠ '#' ∧ ¬(c = '\t' ∨ c = '\r' ∨ c = '\n') := by
    intro c hc
    by_cases hquery : query = []
    · rw [if_pos hquery] at hc
      cases hc
    · rw [if_neg hquery] at hc
      rcases List.mem_cons.mp hc with rfl | hc2
      · exact ⟨by decide, by decide⟩
      · exact hq c hc2
  have hf' : ∀ c ∈ (if frag = [] then [] else '#' :: frag),
      ¬(c = '\t' ∨ c = '\r' ∨ c = '\n') := by
    intro c hc
    by_cases hfrag : frag = []
    · rw [if_pos hfrag] at hc
      cases hc
    · rw [if_neg hfrag] at hc
      rcases List.mem_cons.mp hc with rfl | hc2
      · decide
      · exact hf c hc2
  rw [urlunsplit_http sch host path query frag hs hpne hnds]
  have h1 : preClean (sch ++ ':' :: '/' :: '/' ::
      (host ++ ((if path.take 1 = ['/'] then path else '/' :: path) ++
        ((if query = [] then [] else '?' :: query) ++
         (if frag = [] then [] else '#' :: frag))))) =
      sch ++ ':' :: '/' :: '/' ::
      (host ++ ((if path.take 1 = ['/'] then path else '/' :: path) ++
        ((if query = [] then [] else '?' :: query) ++
         (if frag = [] then [] else '#' :: frag)))) := by
    apply preClean_eq_self
    · intro c hc
      rcases List.mem_append.mp hc with h | h
      · exact hschchars c h
      · rcases List.mem_cons.mp h with rfl | h
        · decide
        · rcases List.mem_cons.mp h with rfl | h
          · decide
          · rcases List.mem_cons.mp h with rfl | h
            · decide
            · rcases List.mem_append.mp h with h | h
              · exact (hhost c h).2
              · rcases List.mem_append.mp h with h | h
                · exact (hE c h).2.2
                · rcases List.mem_append.mp h with h | h
                  · exact (hq' c h).2
                  · exact hf' c h
    · rcases hs with rfl | rfl
      · exact ⟨'h', _, rfl, by decide⟩
      · exact ⟨'h', _, rfl, by decide⟩
  have h2 : splitScheme (sch ++ ':' :: '/' :: '/' ::
      (host ++ ((if path.take 1 = ['/'] then path else '/' :: path) ++
        ((if query = [] then [] else '?' :: query) ++
         (if frag = [] then [] else '#' :: frag))))) =
      (sch, '/' :: '/' ::
      (host ++ ((if path.take 1 = ['/'] then path else '/' :: path) ++
        ((if query = [] then [] else '?' :: query) ++
         (if frag = [] then [] else '#' :: frag))))) :=
    splitScheme_http _ hs
  have h3 : splitNetloc ('/' :: '/' ::
      (host ++ ((if path.take 1 = ['/'] then path else '/' :: path) ++
        ((if query = [] then [] else '?' :: query) ++
         (if frag = [] then [] else '#' :: frag))))) =
      (host, (if path.take 1 = ['/'] then path else '/' :: path) ++
        ((if query = [] then [] else '?' :: query) ++
         (if frag = [] then [] else '#' :: frag))) := by
    apply splitNetloc_append
    · intro c hc
      exact (hhost c hc).1
    · right
      rcases hEz with ⟨z, hz⟩
      exact ⟨'/', z ++ ((if query = [] then [] else '?' :: query) ++
        (if frag = [] then [] else '#' :: frag)), by rw [hz]; rfl, by decide⟩
  have h5 : splitFrag ((if path.take 1 = ['/'] then path else '/' :: path) ++
      ((if query = [] then [] else '?' :: query) ++
       (if frag = [] then [] else '#' :: frag))) =
      ((if path.take 1 = ['/'] then path else '/' :: path) ++
        (if query = [] then [] else '?' :: query), frag) := by
    by_cases hfrag : frag = []
    · rw [if_pos hfrag, List.append_nil]
      rw [splitFrag_no_stop]
      · rw [hfrag]
      · intro c hc
        rcases List.mem_append.mp hc with h | h
        · exact (hE c h).2.1
        · exact (hq' c h).1
    · rw [if_neg hfrag, ← List.append_assoc]
      apply splitFrag_append
      intro c hc
      rcases List.mem_append.mp hc with h | h
      · exact (hE c h).2.1
      · exact (hq' c h).1
  have h6 : splitQuery ((if path.take 1 = ['/'] then path else '/' :: path) ++
      (if query = [] then [] else '?' :: query)) =
      ((if path.take 1 = ['/'] then path else '/' :: path), query) := by
    by_cases hquery : query = []
    · rw [if_pos hquery, List.append_nil]
      rw [splitQuery_no_stop]
      · rw [hquery]
      · intro c hc
        exact (hE c hc).1
    · rw [if_neg hquery]
      apply splitQuery_append
      intro c hc
      exact (hE c hc).1
  have h2a := congrArg Prod.fst h2
  have h2b := congrArg Prod.snd h2
  have h3a := congrArg Prod.fst h3
  have h3b := congrArg Prod.snd h3
  have h5a := congrArg Prod.fst h5
  have h5b := congrArg Prod.snd h5
  have h6a := congrArg Prod.fst h6
  have h6b := congrArg Prod.snd h6
  unfold urlsplitList
  rw [h1, h2a, h2b]
  dsimp only at h3a h3b ⊢
  rw [h3a, h3b, if_neg hbr, h5a, h5b]
  dsimp only
  rw [h6a, h6b]

theorem dropWhile_head_false {p : Char → Bool} {l : List Char} {y : Char}
    {t : List Char} (h : l.dropWhile p = y :: t) : p y = false := by
  induction l with
  | nil => cases h
  | cons a l2 ih =>
    rw [List.dropWhile_cons] at h
    by_cases hp : p a = true
    · rw [if_pos hp] at h
      exact ih h
    · rw [if_neg hp] at h
      injection h with h1 _
      subst h1
      revert hp
      cases p a <;> simp

theorem splitFirst_parts {x : Char} {l pre rest : List Char}
    (h : splitFirst x l = some (pre, rest)) :
    l = pre ++ x :: rest ∧ (∀ c ∈ pre, c ≠ x) := by
  unfold splitFirst at h
  cases hd : l.dropWhile (· ≠ x) with
  | nil =>
    rw [hd] at h
    cases h
  | cons y t =>
    rw [hd] at h
    injection h with h
    injection h with h1 h2
    subst h1
    subst h2
    have hy : y = x := by
      have := dropWhile_head_false hd
      simp only [decide_eq_false_iff_not, not_not] at this
      exact this
    constructor
    · subst hy
      conv_lhs => rw [← List.takeWhile_append_dropWhile (p := (· ≠ y)) (l := l)]
      rw [hd]
    · intro c hc
      have := List.mem_takeWhile_imp hc
      simp only [decide_eq_true_eq] at this
      exact this

theorem splitFirst_none_inv {x : Char} {l : List Char} (h : splitFirst x l = none) :
    ∀ c ∈ l, c ≠ x := by
  unfold splitFirst at h
  cases hd : l.dropWhile (· ≠ x) with
  | cons y t =>
    rw [hd] at h
    cases h
  | nil =>
    intro c hc
    have := (List.dropWhile_eq_nil_iff.mp hd) c hc
    simp only [decide_eq_true_eq] at this
    exact this

theorem preClean_no_bad (l : List Char) :
    ∀ c ∈ preClean l, ¬(c = '\t' ∨ c = '\r' ∨ c = '\n') := by
  intro c hc
  unfold preClean at hc
  have := List.of_mem_filter hc
  simp only [decide_eq_true_eq] at this
  exact this

theorem splitScheme_snd_sub (u : List Char) : ∀ c ∈ (splitScheme u).2, c ∈ u := by
  unfold splitScheme
  cases hsf : splitFirst ':' u with
  | none => exact fun c hc => hc
  | some pr =>
    obtain ⟨pre, rest⟩ := pr
    rcases splitFirst_parts hsf with ⟨hl, _⟩
    cases pre with
    | nil => exact fun c hc => hc
    | cons pc pt =>
      show ∀ c ∈ (if pc.isAlpha = true ∧ (pc :: pt).all schemeCh = true
          then (pyLower (pc :: pt), rest) else ([], u)).2, c ∈ u
      by_cases hcond : pc.isAlpha = true ∧ (pc :: pt).all schemeCh = true
      · rw [if_pos hcond]
        intro c hc
        rw [hl]
        exact List.mem_append_right _ (List.mem_cons_of_mem ':' hc)
      · rw [if_neg hcond]
        exact fun c hc => hc

theorem splitNetloc_fst_stop (u : List Char) :
    ∀ c ∈ (splitNetloc u).1, stopCh c = false := by
  unfold splitNetloc
  by_cases h2 : u.take 2 = ['/', '/']
  · rw [if_pos h2]
    intro c hc
    have := List.mem_takeWhile_imp hc
    revert this
    cases stopCh c <;> simp
  · rw [if_neg h2]
    intro c hc
    cases hc

theorem splitNetloc_fst_sub (u : List Char) : ∀ c ∈ (splitNetloc u).1, c ∈ u := by
  unfold splitNetloc
  by_cases h2 : u.take 2 = ['/', '/']
  · rw [if_pos h2]
    intro c hc
    exact (List.drop_sublist 2 u).mem ((List.takeWhile_sublist _).mem hc)
  · rw [if_neg h2]
    intro c hc
    cases hc

theorem splitNetloc_snd_sub (u : List Char) : ∀ c ∈ (splitNetloc u).2, c ∈ u := by
  unfold splitNetloc
  by_cases h2 : u.take 2 = ['/', '/']
  · rw [if_pos h2]
    intro c hc
    exact (List.drop_sublist 2 u).mem ((List.dropWhile_sublist _).mem hc)
  · rw [if_neg h2]
    exact fun c hc => hc

theorem splitNetloc_snd_shape (u : List Char) (hne : (splitNetloc u).1 ≠ []) :
    (splitNetloc u).2 = [] ∨
      ∃ c t, (splitNetloc u).2 = c :: t ∧ stopCh c = true := by
  unfold splitNetloc at hne ⊢
  by_cases h2 : u.take 2 = ['/', '/']
  · rw [if_pos h2] at hne ⊢
    cases hd : (u.drop 2).dropWhile (fun c => !stopCh c) with
    | nil => exact Or.inl rfl
    | cons y t =>
      right
      refine ⟨y, t, rfl, ?_⟩
      have := dropWhile_head_false hd
      revert this
      cases stopCh y <;> simp
  · rw [if_neg h2] at hne
    exact absurd rfl hne

theorem splitFrag_fst_no_h (u : List Char) : ∀ c ∈ (splitFrag u).1, c ≠ '#' := by
  unfold splitFrag
  cases hsf : splitFirst '#' u with
  | none => exact splitFirst_none_inv hsf
  | some pr =>
    obtain ⟨pre, rest⟩ := pr
    exact (splitFirst_parts hsf).2

theorem splitFrag_fst_sub (u : List Char) : ∀ c ∈ (splitFrag u).1, c ∈ u := by
  unfold splitFrag
  cases hsf : splitFirst '#' u with
  | none => exact fun c hc => hc
  | some pr =>
    obtain ⟨pre, rest⟩ := pr
    intro c hc
    rw [(splitFirst_parts hsf).1]
    exact List.mem_append_left _ hc

theorem splitFrag_snd_sub (u : List Char) : ∀ c ∈ (splitFrag u).2, c ∈ u := by
  unfold splitFrag
  cases hsf : splitFirst '#' u with
  | none =>
    intro c hc
    cases hc
  | some pr =>
    obtain ⟨pre, rest⟩ := pr
    intro c hc
    rw [(splitFirst_parts hsf).1]
    exact List.mem_append_right _ (List.mem_cons_of_mem '#' hc)

theorem splitQuery_fst_no_q (u : List Char) : ∀ c ∈ (splitQuery u).1, c ≠ '?' := by
  unfold splitQuery
  cases hsf : splitFirst '?' u with
  | none => exact splitFirst_none_inv hsf
  | some pr =>
    obtain ⟨pre, rest⟩ := pr
    exact (splitFirst_parts hsf).2

theorem splitQuery_fst_sub (u : List Char) : ∀ c ∈ (splitQuery u).1, c ∈ u := by
  unfold splitQuery
  cases hsf : splitFirst '?' u with
  | none => exact fun c hc => hc
  | some pr =>
    obtain ⟨pre, rest⟩ := pr
    intro c hc
    rw [(splitFirst_parts hsf).1]
    exact List.mem_append_left _ hc

theorem splitQuery_snd_sub (u : List Char) : ∀ c ∈ (splitQuery u).2, c ∈ u := by
  unfold splitQuery
  cases hsf : splitFirst '?' u with
  | none =>
    intro c hc
    cases hc
  | some pr =>
    obtain ⟨pre, rest⟩ := pr
    intro c hc
    rw [(splitFirst_parts hsf).1]
    exact List.mem_append_right _ (List.mem_cons_of_mem '?' hc)

theorem splitFrag_fst_head {u : List Char} {c : Char} (hu : u.head? = some c)
    (hc : c ≠ '#') : ((splitFrag u).1).head? = some c := by
  unfold splitFrag
  cases hsf : splitFirst '#' u with
  | none => exact hu
  | some pr =>
    obtain ⟨pre, rest⟩ := pr
    rcases splitFirst_parts hsf with ⟨hl, hpre⟩
    cases pre with
    | nil =>
      rw [hl] at hu
      injection hu with hu
      exact absurd hu.symm hc
    | cons p0 pt =>
      rw [hl] at hu
      injection hu with hu
      rw [← hu]
      rfl

theorem splitQuery_fst_head {u : List Char} {c : Char} (hu : u.head? = some c)
    (hc : c ≠ '?') : ((splitQuery u).1).head? = some c := by
  unfold splitQuery
  cases hsf : splitFirst '?' u with
  | none => exact hu
  | some pr =>
    obtain ⟨pre, rest⟩ := pr
    rcases splitFirst_parts hsf with ⟨hl, hpre⟩
    cases pre with
    | nil =>
      rw [hl] at hu
      injection hu with hu
      exact absurd hu.symm hc
    | cons p0 pt =>
      rw [hl] at hu
      injection hu with hu
      rw [← hu]
      rfl

theorem splitFrag_fst_of_head_h {u : List Char} (hu : u.head? = some '#') :
    (splitFrag u).1 = [] := by
  unfold splitFrag
  cases u with
  | nil => cases hu
  | cons a t =>
    injection hu with hu
    subst hu
    have hsf : splitFirst '#' ('#' :: t) = some ([], t) := by
      unfold splitFirst
      rw [List.dropWhile_cons, if_neg (by simp)]
      rw [List.takeWhile_cons, if_neg (by simp)]
    rw [hsf]

theorem splitQuery_fst_of_head_q {u : List Char} (hu : u.head? = some '?') :
    (splitQuery u).1 = [] := by
  unfold splitQuery
  cases u with
  | nil => cases hu
  | cons a t =>
    injection hu with hu
    subst hu
    have hsf : splitFirst '?' ('?' :: t) = some ([], t) := by
      unfold splitFirst
      rw [List.dropWhile_cons, if_neg (by simp)]
      rw [List.takeWhile_cons, if_neg (by simp)]
    rw [hsf]

theorem urlsplit_ok_inv {u0 : List Char} {pu : SplitResult}
    (h : urlsplitList u0 = .ok pu) :
    pu.scheme = (splitScheme (preClean u0)).1 ∧
    pu.netloc = (splitNetloc (splitScheme (preClean u0)).2).1 ∧
    pu.path = (splitQuery (splitFrag (splitNetloc (splitScheme (preClean u0)).2).2).1).1 ∧
    pu.query = (splitQuery (splitFrag (splitNetloc (splitScheme (preClean u0)).2).2).1).2 ∧
    pu.fragment = (splitFrag (splitNetloc (splitScheme (preClean u0)).2).2).2 ∧
    ¬ bracketBad pu.netloc := by
  unfold urlsplitList at h
  by_cases hb : bracketBad (splitNetloc (splitScheme (preClean u0)).2).1
  · rw [if_pos hb] at h
    cases h
  · rw [if_neg hb] at h
    injection h with h
    subst h
    exact ⟨rfl, rfl, rfl, rfl, rfl, hb⟩

theorem urlsplit_components {u : List Char} {pu : SplitResult}
    (h : urlsplitList u = .ok pu) :
    (∀ c ∈ pu.netloc, stopCh c = false ∧ ¬(c = '\t' ∨ c = '\r' ∨ c = '\n')) ∧
    ¬ bracketBad pu.netloc ∧
    (∀ c ∈ pu.path, c ≠ '?' ∧ c ≠ '#' ∧ ¬(c = '\t' ∨ c = '\r' ∨ c = '\n')) ∧
    (∀ c ∈ pu.query, c ≠ '#' ∧ ¬(c = '\t' ∨ c = '\r' ∨ c = '\n')) ∧
    (∀ c ∈ pu.fragment, ¬(c = '\t' ∨ c = '\r' ∨ c = '\n')) := by
  rcases urlsplit_ok_inv h with ⟨_, hn, hpth, hq, hf, hbr⟩
  refine ⟨?_, hbr, ?_, ?_, ?_⟩
  · intro c hc
    rw [hn] at hc
    refine ⟨splitNetloc_fst_stop _ c hc, ?_⟩
    exact preClean_no_bad u c (splitScheme_snd_sub _ c (splitNetloc_fst_sub _ c hc))
  · intro c hc
    rw [hpth] at hc
    refine ⟨splitQuery_fst_no_q _ c hc, ?_, ?_⟩
    · exact splitFrag_fst_no_h _ c (splitQuery_fst_sub _ c hc)
    · exact preClean_no_bad u c (splitScheme_snd_sub _ c (splitNetloc_snd_sub _ c
        (splitFrag_fst_sub _ c (splitQuery_fst_sub _ c hc))))
  · intro c hc
    rw [hq] at hc
    refine ⟨splitFrag_fst_no_h _ c (splitQuery_snd_sub _ c hc), ?_⟩
    exact preClean_no_bad u c (splitScheme_snd_sub _ c (splitNetloc_snd_sub _ c
      (splitFrag_fst_sub _ c (splitQuery_snd_sub _ c hc))))
  · intro c hc
    rw [hf] at hc
    exact preClean_no_bad u c (splitScheme_snd_sub _ c (splitNetloc_snd_sub _ c
      (splitFrag_snd_sub _ c hc)))

theorem stop_free_pyLower {nl : List Char} (h : ∀ c ∈ nl, stopCh c = false) :
    ∀ c ∈ pyLower nl, stopCh c = false := by
  intro c hc
  cases hs : stopCh c
  · rfl
  · exfalso
    have h2 : c = '/' ∨ c = '?' ∨ c = '#' := of_decide_eq_true hs
    have hcn : c.toNat < 65 := by rcases h2 with rfl | rfl | rfl <;> decide
    have h3 := h c ((mem_pyLower_special (Or.inl hcn)).mp hc)
    rw [hs] at h3
    cases h3

theorem nobad_pyLower {nl : List Char} (h : ∀ c ∈ nl, ¬(c = '\t' ∨ c = '\r' ∨ c = '\n')) :
    ∀ c ∈ pyLower nl, ¬(c = '\t' ∨ c = '\r' ∨ c = '\n') := by
  intro c hc hbad
  have hcn : c.toNat < 65 := by rcases hbad with rfl | rfl | rfl <;> decide
  exact h c ((mem_pyLower_special (Or.inl hcn)).mp hc) hbad

theorem bracketBad_pyLower (nl : List Char) : bracketBad (pyLower nl) ↔ bracketBad nl := by
  unfold bracketBad
  rw [@mem_pyLower_special nl '[' (by decide), @mem_pyLower_special nl ']' (by decide)]

theorem pyLower_cons_slash (l : List Char) : pyLower ('/' :: l) = '/' :: pyLower l := by
  unfold pyLower
  rw [List.map_cons]
  congr 1

theorem isSuffixOf_cons_of_head_ne (e l : List Char) (a : Char) (h : e.head? ≠ some a) :
    e.isSuffixOf (a :: l) = e.isSuffixOf l := by
  rw [Bool.eq_iff_iff, List.isSuffixOf_iff_suffix, List.isSuffixOf_iff_suffix,
    List.suffix_cons_iff]
  constructor
  · rintro (heq | hs)
    · exfalso
      apply h
      rw [heq]
      rfl
    · exact hs
  · exact Or.inr

theorem any_suffix_cons_slash {exts : List (List Char)}
    (hd : ∀ e ∈ exts, e.head? = some '.') (l : List Char) :
    (exts.any fun e => e.isSuffixOf ('/' :: l)) = exts.any fun e => e.isSuffixOf l := by
  induction exts with
  | nil => rfl
  | cons e t ih =>
    rw [List.any_cons, List.any_cons, ih fun x hx => hd x (List.mem_cons_of_mem e hx)]
    congr 1
    apply isSuffixOf_cons_of_head_ne
    rw [hd e (List.mem_cons_self e t)]
    intro hcon
    injection hcon with hcon
    exact absurd hcon (by decide)

theorem assetHit_cons_slash (l : List Char) : assetHit ('/' :: l) = assetHit l :=
  any_suffix_cons_slash (by decide) l

theorem dotDrop_cons_slash (l : List Char) : dotDrop ('/' :: l) = dotDrop l := by
  unfold dotDrop
  have hcontains : ('/' :: l).contains '.' = l.contains '.' := by simp
  rw [hcontains,
    @isSuffixOf_cons_of_head_ne ".html".data l '/' (by decide),
    @isSuffixOf_cons_of_head_ne ".htm".data l '/' (by decide),
    @isSuffixOf_cons_of_head_ne ".php".data l '/' (by decide)]

theorem peff2_take1 (q : List Char) :
    (if q.take 1 = ['/'] then q else '/' :: q).take 1 = ['/'] := by
  by_cases h : q.take 1 = ['/']
  · rw [if_pos h]
    exact h
  · rw [if_neg h]
    rfl

theorem canon_roundtrip_core (sch nl p0 q0 f0 : List Char) (pqf : Bool)
    (hs : sch = "http".data ∨ sch = "https".data)
    (hnl : ∀ c ∈ nl, stopCh c = false ∧ ¬(c = '\t' ∨ c = '\r' ∨ c = '\n'))
    (hbr : ¬ bracketBad nl)
    (hp0 : ∀ c ∈ p0, c ≠ '?' ∧ c ≠ '#' ∧ ¬(c = '\t' ∨ c = '\r' ∨ c = '\n'))
    (hq0 : ∀ c ∈ q0, c ≠ '#' ∧ ¬(c = '\t' ∨ c = '\r' ∨ c = '\n'))
    (hf0 : ∀ c ∈ f0, ¬(c = '\t' ∨ c = '\r' ∨ c = '\n')) :
    urlsplitList (urlunsplitList ⟨sch, pyLower nl, normPath p0,
        if pqf then q0 else [], if pqf then f0 else []⟩) =
      .ok ⟨sch, pyLower nl,
        (if (normPath p0).take 1 = ['/'] then normPath p0 else '/' :: normPath p0),
        if pqf then q0 else [], if pqf then f0 else []⟩ ∧
    normPath (if (normPath p0).take 1 = ['/'] then normPath p0 else '/' :: normPath p0) =
      (if (normPath p0).take 1 = ['/'] then normPath p0 else '/' :: normPath p0) ∧
    urlunsplitList ⟨sch, pyLower (pyLower nl),
        normPath (if (normPath p0).take 1 = ['/'] then normPath p0 else '/' :: normPath p0),
        if pqf then (if pqf then q0 else []) else [],
        if pqf then (if pqf then f0 else []) else []⟩ =
      urlunsplitList ⟨sch, pyLower nl, normPath p0, if pqf then q0 else [],
        if pqf then f0 else []⟩ ∧
    assetHit (pyLower (normPath
        (if (normPath p0).take 1 = ['/'] then normPath p0 else '/' :: normPath p0))) =
      assetHit (pyLower (normPath p0)) ∧
    dotDrop (pyLower (normPath
        (if (normPath p0).take 1 = ['/'] then normPath p0 else '/' :: normPath p0))) =
      dotDrop (pyLower (normPath p0)) := by
  have hpne := normPath_ne_nil p0
  have hnds := normPath_chain p0
  have hplast := normPath_last p0
  have hpchars : ∀ c ∈ normPath p0,
      c ≠ '?' ∧ c ≠ '#' ∧ ¬(c = '\t' ∨ c = '\r' ∨ c = '\n') := by
    intro c hc
    rcases normPath_mem p0 c hc with h | rfl
    · exact hp0 c h
    · exact ⟨by decide, by decide, by decide⟩
  have hhost2 : ∀ c ∈ pyLower nl, stopCh c = false ∧
      ¬(c = '\t' ∨ c = '\r' ∨ c = '\n') := fun c hc =>
    ⟨stop_free_pyLower (fun d hd => (hnl d hd).1) c hc,
     nobad_pyLower (fun d hd => (hnl d hd).2) c hc⟩
  have hbr2 : ¬ bracketBad (pyLower nl) := by
    rw [bracketBad_pyLower]
    exact hbr
  have hq1 : ∀ c ∈ (if pqf then q0 else []),
      c ≠ '#' ∧ ¬(c = '\t' ∨ c = '\r' ∨ c = '\n') := by
    intro c hc
    cases pqf
    · simp at hc
    · exact hq0 c (by simpa using hc)
  have hf1 : ∀ c ∈ (if pqf then f0 else []), ¬(c = '\t' ∨ c = '\r' ∨ c = '\n') := by
    intro c hc
    cases pqf
    · simp at hc
    · exact hf0 c (by simpa using hc)
  have hnds2 : noDupSlash
      (if (normPath p0).take 1 = ['/'] then normPath p0 else '/' :: normPath p0) := by
    by_cases h1 : (normPath p0).take 1 = ['/']
    · rw [if_pos h1]
      exact hnds
    · rw [if_neg h1]
      cases hp : normPath p0 with
      | nil => exact absurd hp hpne
      | cons c t =>
        have hcne : c ≠ '/' := by
          intro hcon
          apply h1
          rw [hp, hcon]
          rfl
        have hnds' : noDupSlash (c :: t) := by
          rw [← hp]
          exact hnds
        unfold noDupSlash
        exact List.chain'_cons.mpr ⟨fun hcon => hcne hcon.2, hnds'⟩
  have hp2ne : (if (normPath p0).take 1 = ['/'] then normPath p0 else '/' :: normPath p0)
      ≠ [] := by
    intro hcon
    have := peff2_take1 (normPath p0)
    rw [hcon] at this
    cases this
  have hnp2 : normPath
      (if (normPath p0).take 1 = ['/'] then normPath p0 else '/' :: normPath p0) =
      (if (normPath p0).take 1 = ['/'] then normPath p0 else '/' :: normPath p0) := by
    by_cases h1 : (normPath p0).take 1 = ['/']
    · rw [if_pos h1]
      exact normPath_fix _ hpne hnds hplast
    · rw [if_neg h1]
      rw [if_neg h1] at hnds2
      apply normPath_fix _ (by simp) hnds2
      right
      cases hp : normPath p0 with
      | nil => exact absurd hp hpne
      | cons c t =>
        rw [List.getLast?_cons_cons]
        rw [hp] at hplast
        rcases hplast with h2 | h2
        · exfalso
          apply h1
          rw [hp, h2]
          rfl
        · exact h2
  refine ⟨?_, hnp2, ?_, ?_, ?_⟩
  · exact urlsplit_roundtrip sch (pyLower nl) (normPath p0) _ _ hs hhost2 hbr2 hpne hnds
      hpchars hq1 hf1
  · have hqq : (if pqf then (if pqf then q0 else []) else []) = (if pqf then q0 else []) := by
      cases pqf <;> rfl
    have hff : (if pqf then (if pqf then f0 else []) else []) = (if pqf then f0 else []) := by
      cases pqf <;> rfl
    rw [pyLower_idem, hqq, hff, hnp2]
    rw [urlunsplit_http _ _ _ _ _ hs hp2ne hnds2, urlunsplit_http _ _ _ _ _ hs hpne hnds]
    rw [if_pos (peff2_take1 (normPath p0))]
  · rw [hnp2]
    by_cases h1 : (normPath p0).take 1 = ['/']
    · rw [if_pos h1]
    · rw [if_neg h1, pyLower_cons_slash, assetHit_cons_slash]
  · rw [hnp2]
    by_cases h1 : (normPath p0).take 1 = ['/']
    · rw [if_pos h1]
    · rw [if_neg h1, pyLower_cons_slash, dotDrop_cons_slash]

theorem canonAll_fix {base : List Char} {subs pqf : Bool} {u0 y : List Char}
    (h : canonAll base subs pqf u0 = .ok (some y)) (hy : pyStrip y = y) :
    canonAll base subs pqf y = .ok (some y) := by
  by_cases hne0 : pyStrip u0 = []
  · exfalso
    unfold canonAll at h
    rw [if_pos hne0] at h
    injection h with h
    cases h
  rcases he : urlsplitList (pyStrip u0) with e | pu
  · exfalso
    unfold canonAll at h
    rw [if_neg hne0] at h
    rw [he] at h
    cases h
  rcases (canonAll_some_iff hne0 he).mp h with ⟨hs, hh, hyeq⟩
  rcases urlsplit_components he with ⟨hnl, hbr, hp0, hq0, hf0⟩
  rcases canon_roundtrip_core pu.scheme pu.netloc pu.path pu.query pu.fragment pqf
    hs hnl hbr hp0 hq0 hf0 with ⟨hrt, hnp2, hout, _, _⟩
  have hyne : y ≠ [] := by
    rw [hyeq, urlunsplit_http _ _ _ _ _ hs (normPath_ne_nil _) (normPath_chain _)]
    rcases hs with h2 | h2 <;> rw [h2] <;> simp
  have hyne2 : pyStrip y ≠ [] := by
    rw [hy]
    exact hyne
  have hp2 : urlsplitList (pyStrip y) = .ok ⟨pu.scheme, pyLower pu.netloc,
      (if (normPath pu.path).take 1 = ['/'] then normPath pu.path
       else '/' :: normPath pu.path),
      if pqf then pu.query else [], if pqf then pu.fragment else []⟩ := by
    rw [hy, hyeq]
    exact hrt
  apply (canonAll_some_iff hyne2 hp2).mpr
  refine ⟨hs, ?_, ?_⟩
  · show hostInScope base subs (pyLower (pyLower pu.netloc))
    rw [pyLower_idem]
    exact hh
  · rw [hyeq]
    exact hout.symm

theorem canonPages_fix {base : List Char} {subs pqf : Bool} {u0 y : List Char}
    (h : canonPages base subs pqf u0 = .ok (some y)) (hy : pyStrip y = y) :
    canonPages base subs pqf y = .ok (some y) := by
  by_cases hne0 : pyStrip u0 = []
  · exfalso
    unfold canonPages at h
    rw [if_pos hne0] at h
    injection h with h
    cases h
  rcases he : urlsplitList (pyStrip u0) with e | pu
  · exfalso
    unfold canonPages at h
    rw [if_neg hne0] at h
    rw [he] at h
    cases h
  rcases (canonPages_some_iff hne0 he).mp h with ⟨hs, hh, hasset, hdot, hyeq⟩
  rcases urlsplit_components he with ⟨hnl, hbr, hp0, hq0, hf0⟩
  rcases canon_roundtrip_core pu.scheme pu.netloc pu.path pu.query pu.fragment pqf
    hs hnl hbr hp0 hq0 hf0 with ⟨hrt, hnp2, hout, hA, hD⟩
  have hyne : y ≠ [] := by
    rw [hyeq, urlunsplit_http _ _ _ _ _ hs (normPath_ne_nil _) (normPath_chain _)]
    rcases hs with h2 | h2 <;> rw [h2] <;> simp
  have hyne2 : pyStrip y ≠ [] := by
    rw [hy]
    exact hyne
  have hp2 : urlsplitList (pyStrip y) = .ok ⟨pu.scheme, pyLower pu.netloc,
      (if (normPath pu.path).take 1 = ['/'] then normPath pu.path
       else '/' :: normPath pu.path),
      if pqf then pu.query else [], if pqf then pu.fragment else []⟩ := by
    rw [hy, hyeq]
    exact hrt
  apply (canonPages_some_iff hyne2 hp2).mpr
  refine ⟨hs, ?_, ?_, ?_, ?_⟩
  · show hostInScope base subs (pyLower (pyLower pu.netloc))
    rw [pyLower_idem]
    exact hh
  · exact hA.trans hasset
  · exact hD.trans hdot
  · rw [hyeq]
    exact hout.symm

theorem collect_mem {canon : List Char → Except String (Option (List Char))} :
    ∀ {l out : List (List Char)}, collectWith canon l = .ok out →
      ∀ x ∈ out, ∃ u ∈ l, canon u = .ok (some x) := by
  intro l
  induction l with
  | nil =>
    intro out h x hx
    injection h with h
    subst h
    cases hx
  | cons u t ih =>
    intro out h x hx
    rcases hcu : canon u with e | o
    · rw [collectWith, hcu] at h
      cases h
    · rcases hct : collectWith canon t with e | r
      · rw [collectWith, hcu, hct] at h
        cases h
      · rw [collectWith, hcu, hct] at h
        injection h with h
        subst h
        cases o with
        | none =>
          rcases ih hct x hx with ⟨u2, hu2, hcu2⟩
          exact ⟨u2, List.mem_cons_of_mem u hu2, hcu2⟩
        | some z =>
          rcases List.mem_cons.mp hx with rfl | hx2
          · exact ⟨u, List.mem_cons_self u t, hcu⟩
          · rcases ih hct x hx2 with ⟨u2, hu2, hcu2⟩
            exact ⟨u2, List.mem_cons_of_mem u hu2, hcu2⟩

theorem collect_fix {canon : List Char → Except String (Option (List Char))}
    (hfix : ∀ u0 y, canon u0 = .ok (some y) → pyStrip y = y → canon y = .ok (some y)) :
    ∀ {l : List (List Char)},
      (∀ y ∈ l, (∃ u, canon u = .ok (some y)) ∧ pyStrip y = y) →
      collectWith canon l = .ok l := by
  intro l
  induction l with
  | nil =>
    intro _
    rfl
  | cons y t ih =>
    intro h
    rcases h y (List.mem_cons_self y t) with ⟨⟨u, hu⟩, hst⟩
    have hy : canon y = .ok (some y) := hfix u y hu hst
    rw [collectWith, hy, ih fun z hz => h z (List.mem_cons_of_mem y hz)]

theorem normalize_fix_generic {canon : List Char → Except String (Option (List Char))}
    (hfix : ∀ u0 y, canon u0 = .ok (some y) → pyStrip y = y → canon y = .ok (some y))
    {urlsL out0 : List (List Char)}
    (hc : collectWith canon urlsL = .ok out0)
    (hstrip : ∀ y ∈ pySortedSet out0, pyStrip y = y) :
    collectWith canon (pySortedSet out0) = .ok (pySortedSet out0) ∧
    pySortedSet (pySortedSet out0) = pySortedSet out0 := by
  constructor
  · apply collect_fix hfix
    intro y hy
    refine ⟨?_, hstrip y hy⟩
    rcases collect_mem hc y (mem_pySortedSet.mp hy) with ⟨u, _, hu⟩
    exact ⟨u, hu⟩
  · exact pySortedSet_fixpoint (pairwise_pySortedSet out0)

/-- C6: the spec's unconditional idempotence claim fails: a URL whose path ends
in whitespace that is protected by a following `?` survives the first pass with
a trailing space, which the `strip()` of the second pass then removes, so
refiltering changes the output. -/
theorem claim_C6_cex :
    normalize_internal_all ["https://x.com/a ?q"] "x.com" false false =
      .ok ["https://x.com/a "] ∧
    normalize_internal_all ["https://x.com/a "] "x.com" false false =
      .ok ["https://x.com/a"] ∧
    (["https://x.com/a "] : List String) ≠ ["https://x.com/a"] :=
  ⟨by decide, by decide, by decide⟩

/-- C6 (corrected): both filters are idempotent on every output whose strings
are invariant under `strip()` — with the same base host and flags, refiltering
a successful output returns exactly that output, in the same order. -/
theorem claim_C6 (urls : List String) (base : String) (subs pqf : Bool)
    (outP outA : List String)
    (hP : normalize_pages_only urls base subs pqf = .ok outP)
    (hA : normalize_internal_all urls base subs pqf = .ok outA)
    (hsP : ∀ y ∈ outP, pyStrip y.data = y.data)
    (hsA : ∀ y ∈ outA, pyStrip y.data = y.data) :
    normalize_pages_only outP base subs pqf = .ok outP ∧
    normalize_internal_all outA base subs pqf = .ok outA := by
  constructor
  · unfold normalize_pages_only at hP ⊢
    rcases hc : collectWith (canonPages base.data subs pqf) (urls.map String.data)
      with e | out0
    · rw [hc] at hP
      cases hP
    · rw [hc] at hP
      injection hP with hP
      have hmapdata : outP.map String.data = pySortedSet out0 := by
        rw [← hP, List.map_map]
        have hcomp : (String.data ∘ fun l => (⟨l⟩ : String)) = id := rfl
        rw [hcomp, List.map_id]
      have hstrip' : ∀ y ∈ pySortedSet out0, pyStrip y = y := by
        intro y hy
        have hmem : (⟨y⟩ : String) ∈ outP := by
          rw [← hP]
          exact List.mem_map_of_mem _ hy
        exact hsP ⟨y⟩ hmem
      rcases normalize_fix_generic (fun u0 y h h2 => canonPages_fix h h2) hc hstrip'
        with ⟨h1, h2⟩
      rw [hmapdata, h1]
      show Except.ok ((pySortedSet (pySortedSet out0)).map fun l => (⟨l⟩ : String)) =
        Except.ok outP
      rw [h2]
      exact congrArg Except.ok hP
  · unfold normalize_internal_all at hA ⊢
    rcases hc : collectWith (canonAll base.data subs pqf) (urls.map String.data)
      with e | out0
    · rw [hc] at hA
      cases hA
    · rw [hc] at hA
      injection hA with hA
      have hmapdata : outA.map String.data = pySortedSet out0 := by
        rw [← hA, List.map_map]
        have hcomp : (String.data ∘ fun l => (⟨l⟩ : String)) = id := rfl
        rw [hcomp, List.map_id]
      have hstrip' : ∀ y ∈ pySortedSet out0, pyStrip y = y := by
        intro y hy
        have hmem : (⟨y⟩ : String) ∈ outA := by
          rw [← hA]
          exact List.mem_map_of_mem _ hy
        exact hsA ⟨y⟩ hmem
      rcases normalize_fix_generic (fun u0 y h h2 => canonAll_fix h h2) hc hstrip'
        with ⟨h1, h2⟩
      rw [hmapdata, h1]
      show Except.ok ((pySortedSet (pySortedSet out0)).map fun l => (⟨l⟩ : String)) =
        Except.ok outA
      rw [h2]
      exact congrArg Except.ok hA

/-- Witness for C6 at a concrete input: one in-scope page URL, whose filtered
output is itself in both modes, so refiltering it is a no-op. -/
theorem claim_C6_witness :
    normalize_pages_only ["https://x.com/a"] "x.com" false false =
      .ok ["https://x.com/a"] ∧
    normalize_internal_all ["https://x.com/a"] "x.com" false false =
      .ok ["https://x.com/a"] :=
  claim_C6 ["https://x.com/a"] "x.com" false false ["https://x.com/a"]
    ["https://x.com/a"] (by decide) (by decide) (by decide) (by decide)

end SiteMap

